import Mathlib

/-!
# Verification of the cairo time-travel version store

A shallow embedding of `src/cairo/cairo.py` (the versioned file-tree
engine).  Python datetimes are modelled as natural numbers, UUIDs as
natural numbers (freshness is provided by a counter in the store),
`pathlib.Path` values as lists of path components, and the live
filesystem as a list of disk entries.  The process-wide globals of the
module (`_file_index`, `_init_time`, `_ignored`) are collected into a
`Store` record that every operation threads explicitly; Python's in-place
object mutation becomes an update of the entry under its identifier.

Recursive tree walks in the source recurse through the global index and
are therefore modelled with an explicit fuel parameter; all states
considered by the theorems are finite trees on which a sufficiently
large fuel computes the same answer as the Python recursion.  Python
`set` values are modelled as lists: `add`/`remove`/difference keep the
set semantics (no claim below depends on iteration order beyond what the
source itself fixes), and dangling-identifier lookups that would raise
`KeyError` in Python are modelled by the error cases noted at each
definition.
-/

namespace Cairo

/-- Python `datetime`, ordered. -/
abbrev Time := Nat

/-- Python `uuid.UUID`. -/
abbrev UUID := Nat

/-- Path components of a `pathlib.Path`, relative to the working directory
(`Path('.')` is `[]`, `Path('a/b.txt')` is `["a", "b.txt"]`). -/
abbrev FPath := List String

/-- `fp.name`: the final path component (`Path('.')` has name `""`). -/
def pathName (p : FPath) : String := p.getLast?.getD ""

/-- `fp.parent`: the path without its final component. -/
def pathParent (p : FPath) : FPath := p.dropLast

/-- `Version = namedtuple("Version", "verid time")`. -/
structure Version where
  verid : Nat
  time : Time
deriving DecidableEq, Repr

/-- A Python value stored in a `FileObject.data` field or written through
`_write_data`: `None` (directories), `str`, or `bytes`. -/
inductive Data where
  | null : Data
  | str : String → Data
  | bytes : List Nat → Data
deriving DecidableEq, Repr

/-- The `(field, value)` payload of a `Mod`.  The source stores the field
name as a string and the value untyped, but every `Mod` it ever creates
pairs `'data'` with file data, `'path'` with a path and `'children'` with
a set of identifiers, so the pair is modelled as one constructor. -/
inductive ModVal where
  | data : Data → ModVal
  | path : FPath → ModVal
  | children : List UUID → ModVal
deriving DecidableEq, Repr

/-- `Mod`: one modification record. -/
structure Mod where
  version : Version
  val : ModVal
deriving DecidableEq, Repr

/-- `FileObject`: one tracked tree entry. -/
structure FileObject where
  path : FPath
  data : Data
  ID : UUID
  mods : List Mod
  init : Time
  is_dir : Bool
  children : List UUID
  curr_dt : Time
deriving DecidableEq, Repr

instance : Inhabited FileObject :=
  ⟨⟨[], .null, 0, [], 0, false, [], 0⟩⟩

/-- One entry of the live filesystem. -/
structure DiskFile where
  path : FPath
  isDir : Bool
  content : Data
  mtime : Time
deriving DecidableEq, Repr

/-- The live filesystem: a finite list of disk entries. -/
abbrev Disk := List DiskFile

/-- The module-level mutable state: `_file_index` (an insertion-ordered
identifier → entry map), `_init_time`, `_ignored`, the identifier of the
root entry, a counter supplying fresh `uuid1()` values, and a count of
`_save_tree` calls (persistence events). -/
structure Store where
  index : List (UUID × FileObject)
  initTime : Time
  ignored : List String
  rootId : UUID
  nextId : Nat
  saved : Nat
deriving DecidableEq, Repr

/-- Exceptions that can escape the modelled operations. -/
inductive PyErr where
  | cairoNotAtPresent
  | cairoUncommitted
  | attrErr
  | keyErr
  | typeErr
  | assertErr
deriving DecidableEq, Repr

namespace Store

/-- `_file_index.get(id)` / `_file_index[id]` (the caller decides whether a
`none` is a skipped entry or a `KeyError`). -/
def find? (st : Store) (id : UUID) : Option FileObject :=
  (st.index.find? (fun p => p.1 = id)).map (·.2)

/-- Mutate the entry stored under `id` in place. -/
def set (st : Store) (id : UUID) (ft : FileObject) : Store :=
  { st with index := st.index.map (fun p => if p.1 = id then (id, ft) else p) }

/-- `_file_index[ft.ID] = ft` for a freshly created entry. -/
def insert (st : Store) (ft : FileObject) : Store :=
  { st with index := st.index ++ [(ft.ID, ft)] }

end Store

/-! ## Resolver -/

/-- `setattr(rft, m.field, m.value)`. -/
def applyMod (rft : FileObject) (m : Mod) : FileObject :=
  match m.val with
  | .data d => { rft with data := d }
  | .path p => { rft with path := p }
  | .children c => { rft with children := c }

/-- `resolve(ft, stop_time=None)`: fold the modification log over a copy of
the entry, applying a `Mod` when no stop time is given or its version time
is at most the stop time. -/
def resolve (ft : FileObject) (stop_time : Option Time := none) : FileObject :=
  ft.mods.foldl
    (fun rft m =>
      match stop_time with
      | none => applyMod rft m
      | some t => if m.version.time ≤ t then applyMod rft m else rft)
    ft

/-- `_rc(ft, dt)`: resolved children. -/
def rc (ft : FileObject) (dt : Option Time := none) : List UUID :=
  (resolve ft dt).children

/-- `_rd(ft, dt)`: resolved data. -/
def rd (ft : FileObject) (dt : Option Time := none) : Data :=
  (resolve ft dt).data

/-- `_rfp(ft, dt)`: resolved path. -/
def rfp (ft : FileObject) (dt : Option Time := none) : FPath :=
  (resolve ft dt).path

/-- `_last_changed(node)`: version time of the last `Mod`, or the init time
when the log is empty. -/
def lastChanged (node : FileObject) : Time :=
  match node.mods.getLast? with
  | some m => m.version.time
  | none => node.init

/-! ## Filesystem primitives -/

/-- Look up the disk entry at a path. -/
def diskFind? (d : Disk) (p : FPath) : Option DiskFile :=
  d.find? (fun f => f.path = p)

/-- `fp.exists()`. -/
def diskExists (d : Disk) (p : FPath) : Bool :=
  (diskFind? d p).isSome

/-- `fp.is_dir()`. -/
def isDirOnDisk (d : Disk) (p : FPath) : Bool :=
  match diskFind? d p with
  | some f => f.isDir
  | none => false

/-- `_mod_time(fp)`: the filesystem modify time (the source calls it only on
paths that exist; a missing path is given time `0`). -/
def modTime (d : Disk) (p : FPath) : Time :=
  match diskFind? d p with
  | some f => f.mtime
  | none => 0

/-- `_read_data(fp)`: `fp.read_text()` inside a `try` whose `finally` clause
returns.  A `UnicodeDecodeError` (a file holding raw bytes) falls back to
`read_bytes`; every other failure (missing path, reading a directory, a
file with no content) leaves the initial `""` to be returned by the
`finally`. -/
def readData (d : Disk) (p : FPath) : Data :=
  match diskFind? d p with
  | none => .str ""
  | some f =>
    if f.isDir then .str ""
    else
      match f.content with
      | .str s => .str s
      | .bytes b => .bytes b
      | .null => .str ""

/-- `fp.iterdir()`: the immediate children of a directory, in disk order. -/
def iterdir (d : Disk) (p : FPath) : List FPath :=
  (d.filter (fun f => f.path.length = p.length + 1 ∧ p.isPrefixOf f.path)).map (·.path)

/-- `_is_root_dir(path)`: the path is a directory whose `iterdir` listing
contains the bare `Path('.cairo.pkl')` — because `iterdir` yields paths
prefixed with the directory, this holds exactly for the working-directory
root containing the store file. -/
def PKL_FILE : String := ".cairo.pkl"

/-- See `PKL_FILE`. -/
def isRootDir (d : Disk) (p : FPath) : Bool :=
  isDirOnDisk d p && (iterdir d p).contains [PKL_FILE]

/-- `_is_subpath(path, subpath)`: `subpath.relative_to(path)` succeeds. -/
def isSubpath (p sub : FPath) : Bool :=
  p.isPrefixOf sub

/-- `fp.write_text(s)` / the str case of `_write_data`. -/
def writeText (d : Disk) (p : FPath) (s : String) (now : Time) : Disk :=
  if diskExists d p then
    d.map (fun f => if f.path = p then { f with content := .str s, mtime := now, isDir := false } else f)
  else d ++ [⟨p, false, .str s, now⟩]

/-- `fp.write_bytes(b)`. -/
def writeBytes (d : Disk) (p : FPath) (b : List Nat) (now : Time) : Disk :=
  if diskExists d p then
    d.map (fun f => if f.path = p then { f with content := .bytes b, mtime := now, isDir := false } else f)
  else d ++ [⟨p, false, .bytes b, now⟩]

/-- `_write_data(fp, data)`: `None` becomes `''`, strings use `write_text`,
bytes use `write_bytes`. -/
def writeData (d : Disk) (p : FPath) (v : Data) (now : Time) : Disk :=
  match v with
  | .null => writeText d p "" now
  | .str s => writeText d p s now
  | .bytes b => writeBytes d p b now

/-- `fp.touch()`. -/
def diskTouch (d : Disk) (p : FPath) (now : Time) : Disk :=
  if diskExists d p then d.map (fun f => if f.path = p then { f with mtime := now } else f)
  else d ++ [⟨p, false, .str "", now⟩]

/-- `fp.mkdir()` (the source only calls it on paths not currently on disk). -/
def diskMkdir (d : Disk) (p : FPath) (now : Time) : Disk :=
  if diskExists d p then d else d ++ [⟨p, true, .null, now⟩]

/-- `fp.unlink()` on an existing regular file. -/
def diskUnlink (d : Disk) (p : FPath) : Disk :=
  d.filter (fun f => f.path ≠ p)

/-- `fp.rename(newfp)`: the entry (and, for a directory, its subtree)
reappears under the new prefix. -/
def diskRename (d : Disk) (p q : FPath) : Disk :=
  d.map (fun f =>
    if p.isPrefixOf f.path then { f with path := q ++ f.path.drop p.length } else f)

/-- `_rm_f_or_d(fp)`: `rmtree` for a directory, `unlink` otherwise. -/
def rmFOrD (d : Disk) (p : FPath) : Disk :=
  if isDirOnDisk d p then d.filter (fun f => ¬ p.isPrefixOf f.path)
  else diskUnlink d p

/-! ## Query layer

The tree walks recurse through `_file_index`; `F` is the fuel bound.  A
child identifier missing from the index is skipped here (Python would
raise `KeyError`); every state a theorem below touches satisfies the
index-liveness invariant of `rm_file` (claim C9), under which the two
behaviours agree. -/

/-- `find_file_path(ft, fp)`. -/
def findFilePath : Nat → Store → FileObject → FPath → Option FileObject
  | 0, _, _, _ => none
  | F + 1, st, ft, fp =>
    if rfp ft none = fp then some ft
    else (rc ft none).findSome? fun c =>
      (st.find? c).bind fun ch => findFilePath F st ch fp

/-- `find_file(ft, name)`: depth-first search comparing the resolved name,
returning the first hit. -/
def findFile : Nat → Store → FileObject → String → Option FileObject
  | 0, _, _, _ => none
  | F + 1, st, ft, name =>
    if pathName (rfp ft none) = name then some ft
    else (rc ft none).findSome? fun c =>
      (st.find? c).bind fun ch => findFile F st ch name

/-- `find_file_parent(root, child)`. -/
def findFileParent : Nat → Store → FileObject → FileObject → Option FileObject
  | 0, _, _, _ => none
  | F + 1, st, root, child =>
    if child.ID ∈ rc root none then some root
    else (rc root none).findSome? fun c =>
      (st.find? c).bind fun ftc => findFileParent F st ftc child

/-- `_tree_to_set(node, dt=dt)`: every resolved path in the subtree (the
source accumulates into a `set`; the list may repeat a path, membership
is identical). -/
def treeToSet : Nat → Store → FileObject → Option Time → List FPath
  | 0, _, _, _ => []
  | F + 1, st, ft, dt =>
    rfp ft dt :: (rc ft dt).flatMap fun c =>
      match st.find? c with
      | some ch => treeToSet F st ch dt
      | none => []

/-- The `go` accumulator of `get_versions`: all versions of all mods in the
subtree (with repetitions; the source accumulates into a `set`). -/
def goVersions : Nat → Store → FileObject → List Version
  | 0, _, _ => []
  | F + 1, st, ft =>
    ft.mods.map (·.version) ++ (rc ft none).flatMap fun c =>
      match st.find? c with
      | some ch => goVersions F st ch
      | none => []

/-- Stable insert for a descending-by-time sort. -/
def insertDescTime (x : Version) : List Version → List Version
  | [] => [x]
  | y :: ys => if x.time ≤ y.time then y :: insertDescTime x ys else x :: y :: ys

/-- `sorted(vs, key=lambda v: v.time, reverse=True)`. -/
def sortDescTime (l : List Version) : List Version :=
  l.foldr insertDescTime []

/-- `get_versions(root)`: the distinct versions in the subtree, newest
first. -/
def getVersions (F : Nat) (st : Store) (root : FileObject) : List Version :=
  sortDescTime (goVersions F st root).dedup

/-- `any(n in _ignored for n in str(p).split('/'))`. -/
def ignoredComponent (ignored : List String) (p : FPath) : Bool :=
  p.any (fun n => ignored.contains n)

/-- `_rfp(root, dt).glob('**/*')`: every disk path strictly below the
resolved root path. -/
def globFiles (d : Disk) (base : FPath) : List FPath :=
  (d.filter (fun f => f.path ≠ base ∧ base.isPrefixOf f.path)).map (·.path)

/-- `_make_sets(root, dt=None)`: the on-disk paths below the resolved root
(minus ignored components) and the paths implied by the resolved tree
(minus the root's own path). -/
def makeSets (F : Nat) (st : Store) (d : Disk) (root : FileObject) (dt : Option Time) :
    List FPath × List FPath :=
  let dtv : Option Time := some (dt.getD root.curr_dt)
  let files := (globFiles d (rfp root dtv)).filter
    (fun p => ¬ ignoredComponent st.ignored p)
  let ftFiles := (treeToSet F st root dtv).filter (fun p => p ≠ rfp root dtv)
  (files, ftFiles)

/-- The `is_new` predicate local to `changed_files`. -/
def isNew (F : Nat) (st : Store) (root : FileObject) (fp : FPath) : Bool :=
  if st.ignored.contains (pathName fp) then false
  else (findFilePath F st root fp).isNone

/-- The `is_modified` predicate local to `changed_files` (a path with no
tracked entry makes the source return `None`, which the caller treats as
false). -/
def isModified (F : Nat) (st : Store) (d : Disk) (root : FileObject) (fp : FPath) : Bool :=
  if isDirOnDisk d fp then false
  else
    match findFilePath F st root fp with
    | none => false
    | some ft => decide (ft.data ≠ readData d fp) && decide (modTime d fp > lastChanged ft)

/-- `changed_files(root)`. -/
def changedFiles (F : Nat) (st : Store) (d : Disk) (root : FileObject) :
    List (FPath × String) :=
  let sets := makeSets F st d root none
  let files := sets.1
  let ftFiles := sets.2
  let diffFiles := ftFiles.filter (fun f => ¬ files.contains f)
  (files.filterMap fun f =>
    if isNew F st root f then some (f, "new")
    else if isModified F st d root f then some (f, "mod")
    else none)
  ++ diffFiles.map (fun f => (f, "rmv"))

/-- Contiguous-sublist check (Python `in` on sequences). -/
def isSubList (q : List Char) : List Char → Bool
  | [] => q.isEmpty
  | c :: rest => q.isPrefixOf (c :: rest) || isSubList q rest

/-- `in` on a Python `str`. -/
def pyInStr (q s : String) : Bool :=
  isSubList q.toList s.toList

/-- `_query_in_data(ft, query)`: `none` models the `TypeError` Python
raises when `query in _rd(ft, t)` hits a non-`str` resolved value (the
early-return guard only checks the base data). -/
def queryInData (ft : FileObject) (q : String) : Option (List (FPath × Option Version)) :=
  match ft.data with
  | .str s =>
    ft.mods.foldlM
      (fun acc m =>
        match rd ft (some m.version.time) with
        | .str ds =>
          some (if pyInStr q ds then acc ++ [(rfp ft (some m.version.time), some m.version)] else acc)
        | _ => none)
      (if pyInStr q s then [(ft.path, (none : Option Version))] else [])
  | _ => some []

/-- `search_all(root, query)`: union over the whole index of the per-entry
hits, skipping entries whose resolved path is a directory on disk and
entries whose base path is not below the root's base path. -/
def searchAll (st : Store) (d : Disk) (root : FileObject) (q : String) :
    Option (List (FPath × Option Version)) :=
  st.index.foldlM
    (fun vs p =>
      if isDirOnDisk d (rfp p.2 none) || ¬ isSubpath root.path p.2.path then some vs
      else (queryInData p.2 q).map (fun r => vs ++ r))
    []

/-! ## Mutating operations

Each operation returns `Except (PyErr × Store × Disk) (Store × Disk)`: a
Python exception leaves the global index and the filesystem in whatever
(possibly partially mutated) state they had reached, so the error value
carries that state. -/

/-- `_mk_ver()`. -/
def mkVer (st : Store) (now : Time) : Version × Store :=
  (⟨st.nextId, now⟩, { st with nextId := st.nextId + 1 })

/-- `_add_new_mod(ft, key, val, version)`: append a `Mod` (making a fresh
version when none is given) and advance the entry's `curr_dt` to the
version time.  Call sites always pass an entry living in the index. -/
def addNewMod (st : Store) (now : Time) (id : UUID) (val : ModVal) (version : Option Version) :
    Store :=
  let pr := match version with | some v => (v, st) | none => mkVer st now
  match pr.2.find? id with
  | none => pr.2
  | some ft => pr.2.set id { ft with mods := ft.mods ++ [⟨pr.1, val⟩], curr_dt := pr.1.time }

/-- `_save_tree(root)`: persist the store to `_rfp(root)/PKL_FILE`. -/
def saveTree (st : Store) (d : Disk) (root : FileObject) (now : Time) : Store × Disk :=
  ({ st with saved := st.saved + 1 }, writeBytes d (rfp root none ++ [PKL_FILE]) [] now)

/-- `rm_file(root, fp, version=None)`.  A `fp` with no tracked entry returns
without saving; `pc.remove` on a parent not holding the child raises
`KeyError`; a missing parent raises `AttributeError` inside
`resolve(None)`. -/
def rmFile (F : Nat) (st : Store) (d : Disk) (now : Time) (fp : FPath)
    (version : Option Version) : Except (PyErr × Store × Disk) (Store × Disk) :=
  match st.find? st.rootId with
  | none => .error (.keyErr, st, d)
  | some root =>
    match findFilePath F st root fp with
    | none => .ok (st, d)
    | some ft =>
      match findFileParent F st root ft with
      | none => .error (.attrErr, st, d)
      | some parent =>
        let pc := rc parent none
        if ft.ID ∈ pc then
          let st1 := addNewMod st now parent.ID (.children (pc.erase ft.ID)) version
          let d1 := if diskExists d fp then rmFOrD d fp else d
          match st1.find? st1.rootId with
          | none => .error (.keyErr, st1, d1)
          | some root1 => .ok (saveTree st1 d1 root1 now)
        else .error (.keyErr, st, d)

/-- `_mv_child_of_parents(child, parent_src, parent_dest, version)`. -/
def mvChildOfParents (st : Store) (now : Time) (childId p1Id p2Id : UUID) (v : Version) :
    Except (PyErr × Store) Store :=
  match st.find? p1Id, st.find? p2Id with
  | some p1, some p2 =>
    let p1c := rc p1 none
    if childId ∈ p1c then
      let p1c' := p1c.erase childId
      let p2c := rc p2 none
      let p2c' := if childId ∈ p2c then p2c else p2c ++ [childId]
      let st1 := addNewMod st now p1Id (.children p1c') (some v)
      .ok (addNewMod st1 now p2Id (.children p2c') (some v))
    else .error (.keyErr, st)
  | _, _ => .error (.attrErr, st)

/-- `mv_file(root, fp, parent, version=None)`. -/
def mvFile (F : Nat) (st : Store) (d : Disk) (now : Time) (fp parentP : FPath)
    (version : Option Version) : Except (PyErr × Store × Disk) (Store × Disk) :=
  if ¬ isDirOnDisk d parentP then .error (.assertErr, st, d)
  else
    match st.find? st.rootId with
    | none => .error (.keyErr, st, d)
    | some root =>
      match findFilePath F st root fp, findFilePath F st root (pathParent fp),
          findFilePath F st root parentP with
      | some ft, some p1, some p2 =>
        let pr := match version with | some v => (v, st) | none => mkVer st now
        match mvChildOfParents pr.2 now ft.ID p1.ID p2.ID pr.1 with
        | .error e => .error (e.1, e.2, d)
        | .ok st1 =>
          let newfp := parentP ++ [pathName fp]
          let d1 := diskRename d fp newfp
          let st2 := addNewMod st1 now ft.ID (.path newfp) (some pr.1)
          match st2.find? st2.rootId with
          | none => .error (.keyErr, st2, d1)
          | some root2 => .ok (saveTree st2 d1 root2 now)
      | _, _, _ => .ok (st, d)

/-- The `FileObject` constructor together with `__post_init__`: `init` and
`curr_dt` are `max(datetime.now(), _mod_time(path))`, `is_dir` is read off
the disk. -/
def mkFileObject (d : Disk) (now : Time) (fp : FPath) (dat : Data) (id : UUID) : FileObject :=
  let t := max now (modTime d fp)
  { path := fp, data := dat, ID := id, mods := [], init := t,
    is_dir := isDirOnDisk d fp, children := [], curr_dt := t }

/-- `_create_file_tree(fp)`: build (and register, in the index) the subtree
rooted at `fp` from the disk, skipping ignored names; a path that is
neither a directory nor a readable file yields `None`. -/
def createFileTree : Nat → Store → Disk → Time → FPath → Option (Store × FileObject)
  | 0, _, _, _, _ => none
  | F + 1, st, d, now, fp =>
    if st.ignored.contains (pathName fp) then none
    else if isDirOnDisk d fp then
      let ft0 := mkFileObject d now fp .null st.nextId
      let st0 := Store.insert { st with nextId := st.nextId + 1 } ft0
      some ((iterdir d fp).foldl
        (fun acc cfp =>
          match createFileTree F acc.1 d now cfp with
          | none => acc
          | some r =>
            let ft' := { acc.2 with children :=
              if r.2.ID ∈ acc.2.children then acc.2.children else acc.2.children ++ [r.2.ID] }
            (Store.set r.1 ft0.ID ft', ft'))
        (st0, ft0))
    else if diskExists d fp then
      let ft := mkFileObject d now fp (readData d fp) st.nextId
      some (Store.insert { st with nextId := st.nextId + 1 } ft, ft)
    else none

/-- `_add_file_to_tree(root, fp, version)`: create the subtree at `fp` and
attach its root to the parent entry's **base** children (the source copies
`parent.children`, not the resolved set).  When the parent lookup or the
creation fails, the `copy(parent.children)` / `pc.add(newft.ID)` lines
raise `AttributeError` — after the creation already registered entries. -/
def addFileToTree (F : Nat) (st : Store) (d : Disk) (now : Time) (root : FileObject)
    (fp : FPath) (version : Option Version) : Except (PyErr × Store) (Store × UUID) :=
  let pr := match version with | some v => (v, st) | none => mkVer st now
  let parentO := findFilePath F pr.2 root (pathParent fp)
  match createFileTree F pr.2 d now fp with
  | none => .error (.attrErr, pr.2)
  | some r =>
    match parentO with
    | none => .error (.attrErr, r.1)
    | some parent =>
      let pc := if r.2.ID ∈ parent.children then parent.children else parent.children ++ [r.2.ID]
      .ok (addNewMod r.1 now parent.ID (.children pc) (some pr.1), r.2.ID)

/-- Stable insertion for the ascending-by-depth sort in `commit` (the
separator count of a path is its component count minus one, so comparing
component counts orders identically). -/
def insertAscDepth (x : FPath × String) : List (FPath × String) → List (FPath × String)
  | [] => [x]
  | y :: ys => if y.1.length < x.1.length then y :: insertAscDepth x ys else x :: y :: ys

/-- `sorted(cf, key=lambda fc: str(fc[0]).count(os.path.sep))`. -/
def sortByDepth (l : List (FPath × String)) : List (FPath × String) :=
  l.foldr insertAscDepth []

/-- One iteration of `commit`'s loop over the sorted change list. -/
def commitOne (F : Nat) (now : Time) (v : Version) (acc : Store × Disk)
    (item : FPath × String) : Except (PyErr × Store × Disk) (Store × Disk) :=
  if item.2 = "rmv" then rmFile F acc.1 acc.2 now item.1 (some v)
  else
    match acc.1.find? acc.1.rootId with
    | none => .error (.keyErr, acc.1, acc.2)
    | some root =>
      match findFilePath F acc.1 root item.1 with
      | none =>
        match addFileToTree F acc.1 acc.2 now root item.1 (some v) with
        | .error e => .error (e.1, e.2, acc.2)
        | .ok r =>
          match r.1.find? r.2 with
          | none => .error (.keyErr, r.1, acc.2)
          | some newft => .ok (r.1.set r.2 { newft with init := v.time }, acc.2)
      | some ft =>
        .ok (addNewMod acc.1 now ft.ID (.data (readData acc.2 item.1)) (some v), acc.2)

/-- `commit(root)`. -/
def commit (F : Nat) (st : Store) (d : Disk) (now : Time) :
    Except (PyErr × Store × Disk) (Store × Disk) :=
  match st.find? st.rootId with
  | none => .error (.keyErr, st, d)
  | some root =>
    if root.curr_dt < lastChanged root then .error (.cairoNotAtPresent, st, d)
    else
      let pr := mkVer st now
      let cf := changedFiles F pr.2 d root
      match (sortByDepth cf).foldlM (commitOne F now pr.1) (pr.2, d) with
      | .error e => .error e
      | .ok r =>
        match r.1.find? r.1.rootId with
        | none => .error (.keyErr, r.1, r.2)
        | some root2 => .ok (saveTree r.1 r.2 root2 now)

/-! ## Time travel -/

/-- Python `set` equality (the source compares `_rc` results, which are
sets, with `!=`). -/
def listSetEq (a b : List UUID) : Bool :=
  a.all (· ∈ b) && b.all (· ∈ a)

/-- `_add_children(child_paths, dt)`: materialize entries on disk at their
base paths — directories recursively via their base children, files via
`touch` plus `_write_data` of the data resolved at `dt`.  An identifier
missing from the index is skipped (`_file_index.get`). -/
def addChildren : Nat → Store → Disk → Time → Option Time → List UUID → Disk
  | 0, _, d, _, _, _ => d
  | F + 1, st, d, now, dt, cs =>
    cs.foldl
      (fun d c =>
        match st.find? c with
        | none => d
        | some child =>
          if child.is_dir then addChildren F st (diskMkdir d child.path now) now dt child.children
          else writeData (diskTouch d child.path now) child.path (rd child dt) now)
      d

/-- `_rmv_children(child_paths)`: best-effort `unlink` of each child's base
path, swallowing every failure (missing path, directory). -/
def rmvChildren (st : Store) (d : Disk) (cs : List UUID) : Disk :=
  cs.foldl
    (fun d c =>
      match st.find? c with
      | none => d
      | some child =>
        match diskFind? d child.path with
        | none => d
        | some f => if f.isDir then d else diskUnlink d child.path)
    d

/-- `ft_at_time(node, dt)`: reconcile the subtree's on-disk state with its
resolution at `dt` (clamped to the store-init time), recursing into the
fully-resolved children; the root-directory invocation persists at the
end.  The uncommitted-changes guard runs at every level of the
recursion. -/
def ftAtTime : Nat → Store → Disk → Time → UUID → Time →
    Except (PyErr × Store × Disk) (Store × Disk)
  | 0, st, d, _, _, _ => .error (.keyErr, st, d)
  | F + 1, st, d, now, nodeId, dt0 =>
    match st.find? nodeId with
    | none => .error (.keyErr, st, d)
    | some node =>
      let dt := max dt0 st.initTime
      if node.curr_dt ≥ dt ∧ changedFiles F st d node ≠ [] then
        .error (.cairoUncommitted, st, d)
      else
        let d1 := if ¬ isRootDir d node.path ∧ node.init > dt ∧ diskExists d node.path then
            rmFOrD d node.path
          else d
        let d2 := if rfp node (some node.curr_dt) ≠ rfp node (some dt) then
            diskRename d1 (rfp node (some node.curr_dt)) (rfp node (some dt))
          else d1
        match (if rd node (some node.curr_dt) ≠ rd node (some dt) then
                match rd node (some dt) with
                | .str s => Except.ok (writeText d2 (rfp node (some dt)) s now)
                | _ => Except.error (PyErr.typeErr, st, d2)
              else Except.ok d2) with
        | .error e => .error e
        | .ok d3 =>
          let currChld := rc node (some node.curr_dt)
          let dtChld := rc node (some dt)
          let d4 := if ¬ listSetEq currChld dtChld then
              rmvChildren st
                (addChildren F st d3 now (some dt) (dtChld.filter (· ∉ currChld)))
                (currChld.filter (· ∉ dtChld))
            else d3
          let st1 := st.set nodeId { node with curr_dt := dt }
          match (rc node none).foldlM
              (fun (acc : Store × Disk) c =>
                match acc.1.find? c with
                | none => Except.error (PyErr.keyErr, acc.1, acc.2)
                | some _ => ftAtTime F acc.1 acc.2 now c dt)
              (st1, d4) with
          | .error e => .error e
          | .ok r =>
            if isRootDir r.2 node.path then .ok (saveTree r.1 r.2 node now)
            else .ok r

/-! ## The `_read_data` control flow

`_read_data` wraps `fp.read_text()` in a `try` block whose `finally`
clause returns; the two reads are modelled by their abstract outcomes. -/

/-- The failures a read can produce. -/
inductive ReadErr where
  | unicodeDecode
  | ioErr
deriving DecidableEq, Repr

/-- `_read_data` over abstract read outcomes: `data` starts as `""`; the
`try` body stores the text; the `UnicodeDecodeError` handler stores the
bytes (leaving `""` if the byte read itself fails); any other in-flight
exception is discarded by the `return data` inside `finally`, which makes
every call return normally. -/
def readDataCtl (rt : Except ReadErr String) (rb : Except ReadErr (List Nat)) :
    Except ReadErr Data :=
  let body : Data × Option ReadErr :=
    match rt with
    | .ok s => (.str s, none)
    | .error .unicodeDecode =>
      match rb with
      | .ok b => (.bytes b, none)
      | .error e => (.str "", some e)
    | .error .ioErr => (.str "", some .ioErr)
  Except.ok body.1

/-- `fp.read_text()` against the disk model: missing paths and directories
fail with an OS error, raw bytes fail to decode. -/
def diskReadText (d : Disk) (p : FPath) : Except ReadErr String :=
  match diskFind? d p with
  | none => .error .ioErr
  | some f =>
    if f.isDir then .error .ioErr
    else
      match f.content with
      | .str s => .ok s
      | .bytes _ => .error .unicodeDecode
      | .null => .ok ""

/-- `fp.read_bytes()` against the disk model. -/
def diskReadBytes (d : Disk) (p : FPath) : Except ReadErr (List Nat) :=
  match diskFind? d p with
  | none => .error .ioErr
  | some f =>
    if f.isDir then .error .ioErr
    else
      match f.content with
      | .str s => .ok (s.toUTF8.toList.map (fun b => b.toNat))
      | .bytes b => .ok b
      | .null => .ok []

/-! ## Resolver lemmas and claim C3 -/

/-- The body of `resolve`'s fold, starting from an arbitrary accumulator. -/
def resolveAux (stop_time : Option Time) (s : FileObject) (ms : List Mod) : FileObject :=
  ms.foldl
    (fun rft m =>
      match stop_time with
      | none => applyMod rft m
      | some t => if m.version.time ≤ t then applyMod rft m else rft)
    s

theorem resolve_eq_resolveAux (ft : FileObject) (stop : Option Time) :
    resolve ft stop = resolveAux stop ft ft.mods := rfl

theorem resolveAux_concat (stop : Option Time) (s : FileObject) (ms : List Mod) (m : Mod) :
    resolveAux stop s (ms ++ [m]) =
      (match stop with
       | none => applyMod (resolveAux stop s ms) m
       | some t => if m.version.time ≤ t then applyMod (resolveAux stop s ms) m
                   else resolveAux stop s ms) := by
  simp only [resolveAux, List.foldl_append, List.foldl_cons, List.foldl_nil]
  cases stop <;> rfl

/-- The Mods of a log that `resolve` applies at stop time `stop`. -/
def appliedMods (stop : Option Time) (ms : List Mod) : List Mod :=
  match stop with
  | none => ms
  | some t => ms.filter (fun m => m.version.time ≤ t)

theorem appliedMods_concat (stop : Option Time) (ms : List Mod) (m : Mod) :
    appliedMods stop (ms ++ [m]) =
      appliedMods stop ms ++
        (match stop with
         | none => [m]
         | some t => if m.version.time ≤ t then [m] else []) := by
  cases stop with
  | none => simp [appliedMods]
  | some t =>
    simp only [appliedMods, List.filter_append]
    by_cases h : m.version.time ≤ t <;> simp [h]

/-- The last `data` value among a list of Mods. -/
def lastData (ms : List Mod) : Option Data :=
  (ms.filterMap (fun m => match m.val with | .data d => some d | _ => none)).getLast?

/-- The last `path` value among a list of Mods. -/
def lastPath (ms : List Mod) : Option FPath :=
  (ms.filterMap (fun m => match m.val with | .path p => some p | _ => none)).getLast?

/-- The last `children` value among a list of Mods. -/
def lastChildren (ms : List Mod) : Option (List UUID) :=
  (ms.filterMap (fun m => match m.val with | .children c => some c | _ => none)).getLast?

theorem lastData_concat (ms : List Mod) (m : Mod) :
    lastData (ms ++ [m]) =
      (match m.val with | .data d => some d | _ => lastData ms) := by
  cases hv : m.val <;>
    simp [lastData, List.filterMap_append, List.getLast?_concat, hv]

theorem lastPath_concat (ms : List Mod) (m : Mod) :
    lastPath (ms ++ [m]) =
      (match m.val with | .path p => some p | _ => lastPath ms) := by
  cases hv : m.val <;>
    simp [lastPath, List.filterMap_append, List.getLast?_concat, hv]

theorem lastChildren_concat (ms : List Mod) (m : Mod) :
    lastChildren (ms ++ [m]) =
      (match m.val with | .children c => some c | _ => lastChildren ms) := by
  cases hv : m.val <;>
    simp [lastChildren, List.filterMap_append, List.getLast?_concat, hv]

/-- A record of the per-field last-wins reading of a resolution state. -/
def FieldsSpec (s base : FileObject) (ms : List Mod) : Prop :=
  s.data = (lastData ms).getD base.data ∧
  s.path = (lastPath ms).getD base.path ∧
  s.children = (lastChildren ms).getD base.children ∧
  s.ID = base.ID ∧ s.mods = base.mods ∧ s.init = base.init ∧
  s.is_dir = base.is_dir ∧ s.curr_dt = base.curr_dt

theorem fieldsSpec_step (s base : FileObject) (ms : List Mod) (m : Mod)
    (h : FieldsSpec s base ms) : FieldsSpec (applyMod s m) base (ms ++ [m]) := by
  obtain ⟨hd, hp, hc, hid, hm, hi, hdir, hcd⟩ := h
  unfold FieldsSpec
  rw [lastData_concat, lastPath_concat, lastChildren_concat]
  cases m with
  | mk v val =>
    cases val with
    | data dd => exact ⟨rfl, hp, hc, hid, hm, hi, hdir, hcd⟩
    | path pp => exact ⟨hd, rfl, hc, hid, hm, hi, hdir, hcd⟩
    | children cc => exact ⟨hd, hp, rfl, hid, hm, hi, hdir, hcd⟩

theorem resolveAux_fields (stop : Option Time) (s : FileObject) (ms : List Mod) :
    FieldsSpec (resolveAux stop s ms) s (appliedMods stop ms) := by
  induction ms using List.reverseRecOn with
  | nil =>
    cases stop <;>
      exact ⟨rfl, rfl, rfl, rfl, rfl, rfl, rfl, rfl⟩
  | append_singleton ms m ih =>
    rw [resolveAux_concat, appliedMods_concat]
    cases stop with
    | none => exact fieldsSpec_step _ _ _ _ ih
    | some t =>
      by_cases ht : m.version.time ≤ t
      · simpa [ht] using fieldsSpec_step _ _ _ _ ih
      · simpa [ht] using ih

theorem resolveAux_none_eq (T : Time) (s : FileObject) (ms : List Mod)
    (h : ∀ m ∈ ms, m.version.time ≤ T) :
    resolveAux none s ms = resolveAux (some T) s ms := by
  induction ms generalizing s with
  | nil => rfl
  | cons m ms ih =>
    have hm : m.version.time ≤ T := h m (List.mem_cons_self m ms)
    have hrest : ∀ m' ∈ ms, m'.version.time ≤ T := fun m' hm' => h m' (List.mem_cons_of_mem m hm')
    show resolveAux none (applyMod s m) ms = resolveAux (some T) _ ms
    rw [ih (applyMod s m) hrest]
    simp [resolveAux, hm]

/-- C3: `resolve(E, t)` applies, in log order, exactly the Mods with version
time ≤ `t` over the base fields — last applied Mod per field wins and the
base field survives where no applied Mod touched it; with `stop_time`
omitted every Mod is applied, which coincides with any stop time at or
above all version times; `resolve` is a total pure function (never raises)
and returns a derived snapshot leaving the entry — in particular its
identifier, log, init time, kind and logical clock — untouched. -/
theorem c3_resolve_spec (ft : FileObject) (t : Time) (T : Time)
    (hT : ∀ m ∈ ft.mods, m.version.time ≤ T) :
    ((resolve ft (some t)).data =
        (lastData (ft.mods.filter (fun m => m.version.time ≤ t))).getD ft.data ∧
      (resolve ft (some t)).path =
        (lastPath (ft.mods.filter (fun m => m.version.time ≤ t))).getD ft.path ∧
      (resolve ft (some t)).children =
        (lastChildren (ft.mods.filter (fun m => m.version.time ≤ t))).getD ft.children) ∧
    ((resolve ft none).data = (lastData ft.mods).getD ft.data ∧
      (resolve ft none).path = (lastPath ft.mods).getD ft.path ∧
      (resolve ft none).children = (lastChildren ft.mods).getD ft.children) ∧
    resolve ft none = resolve ft (some T) ∧
    ((resolve ft (some t)).ID = ft.ID ∧ (resolve ft (some t)).mods = ft.mods ∧
      (resolve ft (some t)).init = ft.init ∧ (resolve ft (some t)).is_dir = ft.is_dir ∧
      (resolve ft (some t)).curr_dt = ft.curr_dt) := by
  have h1 := resolveAux_fields (some t) ft ft.mods
  have h2 := resolveAux_fields none ft ft.mods
  unfold FieldsSpec at h1 h2
  rw [← resolve_eq_resolveAux] at h1 h2
  refine ⟨⟨h1.1, h1.2.1, h1.2.2.1⟩, ⟨h2.1, h2.2.1, h2.2.2.1⟩, ?_, ?_⟩
  · rw [resolve_eq_resolveAux, resolve_eq_resolveAux]
    exact resolveAux_none_eq T ft ft.mods hT
  · exact ⟨h1.2.2.2.1, h1.2.2.2.2.1, h1.2.2.2.2.2.1, h1.2.2.2.2.2.2.1, h1.2.2.2.2.2.2.2⟩

/-- Witness for C3 at a concrete entry and stop times. -/
theorem c3_resolve_spec_witness :
    (resolve ⟨["f"], .str "a", 7, [⟨⟨1, 3⟩, .data (.str "b")⟩, ⟨⟨2, 5⟩, .data (.str "c")⟩],
        0, false, [], 0⟩ (some 4)).data = .str "b" := by
  have h := c3_resolve_spec
    ⟨["f"], .str "a", 7, [⟨⟨1, 3⟩, .data (.str "b")⟩, ⟨⟨2, 5⟩, .data (.str "c")⟩],
      0, false, [], 0⟩ 4 9 (by decide)
  rw [h.1.1]
  decide

/-- C10: `_read_data` never raises — on a successful text read it returns
the text, on `UnicodeDecodeError` it returns the raw bytes, and on any
other failure (missing or unreadable file, or a failing byte read) it
returns the empty string; consequently, against the disk model, the value
`changed_files`, `commit` and `_create_file_tree` observe through
`_read_data` is exactly `readData` — an unreadable path reads as the empty
string rather than an exception. -/
theorem c10_read_data_total (rt : Except ReadErr String) (rb : Except ReadErr (List Nat))
    (d : Disk) (p : FPath) :
    (∃ dv, readDataCtl rt rb = Except.ok dv) ∧
    (∀ s, rt = Except.ok s → readDataCtl rt rb = Except.ok (.str s)) ∧
    (∀ b, rt = Except.error .unicodeDecode → rb = Except.ok b →
      readDataCtl rt rb = Except.ok (.bytes b)) ∧
    (rt = Except.error .ioErr → readDataCtl rt rb = Except.ok (.str "")) ∧
    (∀ e, rt = Except.error .unicodeDecode → rb = Except.error e →
      readDataCtl rt rb = Except.ok (.str "")) ∧
    readDataCtl (diskReadText d p) (diskReadBytes d p) = Except.ok (readData d p) := by
  refine ⟨?_, ?_, ?_, ?_, ?_, ?_⟩
  · cases rt with
    | ok s => exact ⟨.str s, rfl⟩
    | error e =>
      cases e with
      | unicodeDecode =>
        cases rb with
        | ok b => exact ⟨.bytes b, rfl⟩
        | error e => exact ⟨.str "", rfl⟩
      | ioErr => exact ⟨.str "", rfl⟩
  · rintro s rfl; rfl
  · rintro b rfl rfl; rfl
  · rintro rfl; rfl
  · rintro e rfl rfl; rfl
  · unfold diskReadText diskReadBytes readData readDataCtl
    cases hf : diskFind? d p with
    | none => rfl
    | some f =>
      by_cases hdir : f.isDir
      · simp [hdir]
      · cases hc : f.content <;> simp [hdir, hc]

/-- Witness for C10 at concrete read outcomes. -/
theorem c10_read_data_total_witness :
    readDataCtl (Except.error .unicodeDecode) (Except.ok [104, 105]) =
      Except.ok (.bytes [104, 105]) :=
  (c10_read_data_total (Except.error .unicodeDecode) (Except.ok [104, 105]) [] []).2.2.1
    [104, 105] rfl rfl

/-! ## Claim C1: classification as `mod` -/

theorem isNew_false_of_tracked (F : Nat) (st : Store) (root ft : FileObject) (fp : FPath)
    (hft : findFilePath F st root fp = some ft) : isNew F st root fp = false := by
  by_cases hig : st.ignored.contains (pathName fp) = true
  · simp only [isNew, if_pos hig]
  · simp only [isNew, if_neg hig]
    simp [hft]

theorem isModified_iff (F : Nat) (st : Store) (d : Disk) (root ft : FileObject) (fp : FPath)
    (hft : findFilePath F st root fp = some ft) (hnd : isDirOnDisk d fp = false) :
    isModified F st d root fp = true ↔
      (ft.data ≠ readData d fp ∧ modTime d fp > lastChanged ft) := by
  unfold isModified
  simp [hnd, hft]

/-- C1: for a path on disk below the root that carries a tracked non-directory
entry, `changed_files` reports it as `mod` exactly when the on-disk content
differs from the entry's tracked (base) content **and** the filesystem
modify time is strictly after the entry's last-modification time (last Mod's
version time, or the init time for an empty log); if either condition fails
the path is not reported as `mod`. -/
theorem c1_changed_mod_iff (F : Nat) (st : Store) (d : Disk) (root ft : FileObject)
    (fp : FPath) (hft : findFilePath F st root fp = some ft)
    (hdisk : fp ∈ (makeSets F st d root none).1)
    (hnd : isDirOnDisk d fp = false) :
    (fp, "mod") ∈ changedFiles F st d root ↔
      (readData d fp ≠ ft.data ∧ modTime d fp > lastChanged ft) := by
  have hnew := isNew_false_of_tracked F st root ft fp hft
  have hmod := isModified_iff F st d root ft fp hft hnd
  unfold changedFiles
  simp only [List.mem_append, List.mem_filterMap, List.mem_map]
  constructor
  · rintro (⟨a, ha, hfa⟩ | ⟨a, ha, hfa⟩)
    · by_cases h1 : isNew F st root a = true
      · rw [if_pos h1] at hfa
        simp at hfa
      · rw [if_neg h1] at hfa
        by_cases h2 : isModified F st d root a = true
        · rw [if_pos h2] at hfa
          have ha2 := Option.some.inj hfa
          have haf : a = fp := congrArg Prod.fst ha2
          subst haf
          have := hmod.mp h2
          exact ⟨Ne.symm this.1, this.2⟩
        · rw [if_neg h2] at hfa
          simp at hfa
    · exfalso
      have : "rmv" = "mod" := congrArg Prod.snd hfa
      simp at this
  · rintro ⟨hdata, htime⟩
    left
    refine ⟨fp, hdisk, ?_⟩
    rw [if_neg (by simp [hnew]), if_pos (hmod.mpr ⟨Ne.symm hdata, htime⟩)]

/-! ## Result extractors for the `Except` results -/

/-- The store in a result, also in the error (partial-mutation) case. -/
def okStore (r : Except (PyErr × Store × Disk) (Store × Disk)) : Store :=
  match r with
  | .ok p => p.1
  | .error e => e.2.1

/-- The disk in a result, also in the error (partial-mutation) case. -/
def okDisk (r : Except (PyErr × Store × Disk) (Store × Disk)) : Disk :=
  match r with
  | .ok p => p.2
  | .error e => e.2.2

/-- Whether the operation returned without an exception. -/
def isOkE (r : Except (PyErr × Store × Disk) (Store × Disk)) : Bool :=
  match r with
  | .ok _ => true
  | .error _ => false

/-- The exception kind, when one escaped. -/
def errOf (r : Except (PyErr × Store × Disk) (Store × Disk)) : Option PyErr :=
  match r with
  | .ok _ => none
  | .error e => some e.1

/-! ## Claim C1 witness state: a root tracking one file whose disk copy
changed (content differs, modify time after the entry's last change). -/

def exFileC1 : FileObject := ⟨["a.txt"], .str "x", 1, [], 0, false, [], 0⟩

def exRootC1 : FileObject := ⟨[], .null, 0, [], 0, true, [1], 0⟩

def exStoreC1 : Store :=
  ⟨[(0, exRootC1), (1, exFileC1)], 0, ["ignore.txt", ".cairo.pkl"], 0, 2, 0⟩

def exDiskC1 : Disk :=
  [⟨[], true, .null, 0⟩, ⟨[".cairo.pkl"], false, .bytes [], 0⟩,
   ⟨["a.txt"], false, .str "y", 5⟩]

/-- Witness for C1 at a concrete state. -/
theorem c1_changed_mod_iff_witness :
    (["a.txt"], "mod") ∈ changedFiles 5 exStoreC1 exDiskC1 exRootC1 :=
  (c1_changed_mod_iff 5 exStoreC1 exDiskC1 exRootC1 exFileC1 ["a.txt"]
    (by decide) (by decide) (by decide)).mpr (by decide)

/-! ## Claim C2: a committed removal inside a subdirectory stays in
`changed_files`.

The store tracks `sub/a.txt`, deleted from disk.  `commit` routes the
`rmv` through `rm_file`, which appends the `children` Mod to `sub` (not to
the root), so the root's `curr_dt` never advances; the next
`changed_files` resolves the tree at that stale `curr_dt`, does not see
the removal Mod, and reports the same `rmv` again. -/

def exRootDeepRm : FileObject := ⟨[], .null, 0, [], 0, true, [1], 0⟩

def exSubDeepRm : FileObject := ⟨["sub"], .null, 1, [], 0, true, [2], 0⟩

def exFileDeepRm : FileObject := ⟨["sub", "a.txt"], .str "x", 2, [], 0, false, [], 0⟩

def exStoreDeepRm : Store :=
  ⟨[(0, exRootDeepRm), (1, exSubDeepRm), (2, exFileDeepRm)], 0,
   ["ignore.txt", ".cairo.pkl"], 0, 3, 0⟩

def exDiskDeepRm : Disk :=
  [⟨[], true, .null, 0⟩, ⟨[".cairo.pkl"], false, .bytes [], 0⟩, ⟨["sub"], true, .null, 0⟩]

/-- The first commit of the C2 scenario. -/
def c2FirstCommit : Except (PyErr × Store × Disk) (Store × Disk) :=
  commit 10 exStoreDeepRm exDiskDeepRm 5

/-- The second commit of the C2 scenario. -/
def c2SecondCommit : Except (PyErr × Store × Disk) (Store × Disk) :=
  commit 10 (okStore c2FirstCommit) (okDisk c2FirstCommit) 6

/-- C2 fails on the code: with the root at its present (its logical current
time equals its last recorded change), committing the single pending
removal succeeds, yet `changed_files` immediately afterwards still
reports that removal — the diff is not empty.  The second half of the
claim does hold on this input: the second commit appends no Mods (the
index is unchanged) and only re-persists (the save counter grows). -/
theorem c2_commit_then_changed_files_nonempty :
    exRootDeepRm.curr_dt = lastChanged exRootDeepRm ∧
    changedFiles 10 exStoreDeepRm exDiskDeepRm exRootDeepRm = [(["sub", "a.txt"], "rmv")] ∧
    isOkE c2FirstCommit = true ∧
    changedFiles 10 (okStore c2FirstCommit) (okDisk c2FirstCommit)
        (((okStore c2FirstCommit).find? 0).getD default) = [(["sub", "a.txt"], "rmv")] ∧
    isOkE c2SecondCommit = true ∧
    (okStore c2SecondCommit).index = (okStore c2FirstCommit).index ∧
    (okStore c2SecondCommit).saved = (okStore c2FirstCommit).saved + 1 := by
  decide

/-! ## Claim C4: the uncommitted-changes guard of `ft_at_time`.

The guard runs again at every level of the recursion, so the call can
raise even when the root-level condition is false. -/

/-- C4 (amended): when the root's logical current time is at or after the
clamped target **and** `changed_files(root)` is non-empty, `ft_at_time`
raises the uncommitted-changes error at the top level, before any disk or
state mutation (the error carries the input store and disk unchanged).
The converse of the claim's iff is refuted by
`c4_ft_at_time_guard_counterexample`. -/
theorem c4_ft_at_time_guard (F : Nat) (st : Store) (d : Disk) (now : Time)
    (nodeId : UUID) (dt0 : Time) (node : FileObject)
    (hn : st.find? nodeId = some node)
    (hcond : node.curr_dt ≥ max dt0 st.initTime ∧ changedFiles F st d node ≠ []) :
    ftAtTime (F + 1) st d now nodeId dt0 = .error (.cairoUncommitted, st, d) := by
  unfold ftAtTime
  rw [hn]
  simp only [if_pos hcond]

/-- Witness for the amended C4 at a concrete state (the C1 state has a
pending modification and the root sits at the clamped target). -/
theorem c4_ft_at_time_guard_witness :
    ftAtTime 6 exStoreC1 exDiskC1 9 0 0 = .error (.cairoUncommitted, exStoreC1, exDiskC1) :=
  c4_ft_at_time_guard 5 exStoreC1 exDiskC1 9 0 0 exRootC1 (by decide)
    ⟨by decide, by decide⟩

/-! The counterexample state: the root still sits at time 0, `sub` was
modified at time 5 (a commit that attached `sub/c.txt`), and `sub/b.txt`
was edited on disk at time 7 without a commit.  Travelling the root to
time 2 passes the top-level guard (`0 ≥ 2` is false), mutates the root's
logical clock, recurses into `sub` — whose own guard then raises. -/

def exRootTrav : FileObject := ⟨[], .null, 0, [], 0, true, [1], 0⟩

def exSubTrav : FileObject :=
  ⟨["sub"], .null, 1, [⟨⟨10, 5⟩, .children [2, 3]⟩], 0, true, [2], 5⟩

def exFileBTrav : FileObject := ⟨["sub", "b.txt"], .str "orig", 2, [], 0, false, [], 0⟩

def exFileCTrav : FileObject := ⟨["sub", "c.txt"], .str "", 3, [], 5, false, [], 5⟩

def exStoreTrav : Store :=
  ⟨[(0, exRootTrav), (1, exSubTrav), (2, exFileBTrav), (3, exFileCTrav)], 0,
   ["ignore.txt", ".cairo.pkl"], 0, 11, 0⟩

def exDiskTrav : Disk :=
  [⟨[], true, .null, 0⟩, ⟨[".cairo.pkl"], false, .bytes [], 0⟩, ⟨["sub"], true, .null, 0⟩,
   ⟨["sub", "b.txt"], false, .str "edited", 7⟩, ⟨["sub", "c.txt"], false, .str "", 3⟩]

/-- C4 as stated is false: `ft_at_time(root, 2)` raises the
uncommitted-changes error although the root's current time (0) is **not**
≥ the clamped target (2) — the raise comes from the recursive guard at
`sub`, and the error state shows the root's logical clock already mutated
to 2. -/
theorem c4_ft_at_time_guard_counterexample :
    errOf (ftAtTime 10 exStoreTrav exDiskTrav 8 0 2) = some .cairoUncommitted ∧
    ¬(exRootTrav.curr_dt ≥ max 2 exStoreTrav.initTime ∧
        changedFiles 10 exStoreTrav exDiskTrav exRootTrav ≠ []) ∧
    ((okStore (ftAtTime 10 exStoreTrav exDiskTrav 8 0 2)).find? 0).map (·.curr_dt) =
      some 2 := by
  decide

/-! ## Claim C7: `find_file` and depth.

`exStoreFind` has a depth-1 entry named `x` listed **after** a directory
whose subtree holds a depth-2 entry also named `x`. -/

def exRootFind : FileObject := ⟨[], .null, 0, [], 0, true, [1, 2], 0⟩

def exDirFind : FileObject := ⟨["d"], .null, 1, [], 0, true, [3], 0⟩

def exShallowFind : FileObject := ⟨["x"], .str "s", 2, [], 0, false, [], 0⟩

def exDeepFind : FileObject := ⟨["d", "x"], .str "t", 3, [], 0, false, [], 0⟩

def exStoreFind : Store :=
  ⟨[(0, exRootFind), (1, exDirFind), (2, exShallowFind), (3, exDeepFind)], 0,
   ["ignore.txt", ".cairo.pkl"], 0, 4, 0⟩

/-- C7 fails on the code (whose own docstring promises "the most shallow
instance"): `find_file` is a plain depth-first first-match search, so with
a matching entry at depth 2 under the first child and a matching entry at
depth 1 as the second child, it returns the depth-2 entry. -/
theorem c7_find_file_returns_deeper_match :
    (findFile 10 exStoreFind exRootFind "x").map (·.ID) = some 3 ∧
    pathName (rfp exShallowFind none) = "x" ∧
    exShallowFind.ID ∈ rc exRootFind none ∧
    (findFile 10 exStoreFind exRootFind "x").map (·.ID) ≠ some exShallowFind.ID := by
  decide

/-! ## Claim C8 counterexample state: an entry whose data was overwritten
by a committed Mod.  Its *current* (resolved) data contains the query but
the `(path, None)` hit is keyed on the initial snapshot `ft.data`, so it
is not emitted. -/

def exRootSearch : FileObject := ⟨[], .null, 0, [], 0, true, [1], 0⟩

def exFileSearch : FileObject :=
  ⟨["f.txt"], .str "a", 1, [⟨⟨7, 3⟩, .data (.str "b")⟩], 0, false, [], 3⟩

def exStoreSearch : Store :=
  ⟨[(0, exRootSearch), (1, exFileSearch)], 0, ["ignore.txt", ".cairo.pkl"], 0, 8, 0⟩

def exDiskSearch : Disk :=
  [⟨[], true, .null, 0⟩, ⟨[".cairo.pkl"], false, .bytes [], 0⟩,
   ⟨["f.txt"], false, .str "b", 3⟩]

/-- C8 fails on the code: the file's current (fully resolved) data is
`"b"` and the query `"b"` occurs in it, yet `search_all` does not emit
`(path, None)` — the live hit is keyed on the entry's initial snapshot
`ft.data = "a"`.  (The per-Mod-version hit is emitted.) -/
theorem c8_search_all_counterexample :
    rd exFileSearch none = .str "b" ∧
    pyInStr "b" "b" = true ∧
    searchAll exStoreSearch exDiskSearch exRootSearch "b" =
      some [(["f.txt"], some ⟨7, 3⟩)] ∧
    (["f.txt"], (none : Option Version)) ∉
      (searchAll exStoreSearch exDiskSearch exRootSearch "b").getD [] := by
  decide

/-! ## Claim C5: the `commit` guard.

The lemmas below classify every exception the commit loop can raise:
none of them is the "not at present" error, which therefore comes from
the guard alone. -/

theorem rmFile_err {F : Nat} {st : Store} {d : Disk} {now : Time} {fp : FPath}
    {v : Option Version} {e : PyErr × Store × Disk}
    (h : rmFile F st d now fp v = Except.error e) :
    e.1 = PyErr.attrErr ∨ e.1 = PyErr.keyErr := by
  unfold rmFile at h
  simp only [] at h
  repeat' split at h
  all_goals try cases h
  all_goals first | exact Or.inr rfl | exact Or.inl rfl

theorem addFileToTree_err {F : Nat} {st : Store} {d : Disk} {now : Time}
    {root : FileObject} {fp : FPath} {v : Option Version} {e : PyErr × Store}
    (h : addFileToTree F st d now root fp v = Except.error e) :
    e.1 = PyErr.attrErr := by
  unfold addFileToTree at h
  simp only [] at h
  repeat' split at h
  all_goals try cases h
  all_goals rfl

theorem commitOne_err {F : Nat} {now : Time} {v : Version} {acc : Store × Disk}
    {item : FPath × String} {e : PyErr × Store × Disk}
    (h : commitOne F now v acc item = Except.error e) :
    e.1 = PyErr.attrErr ∨ e.1 = PyErr.keyErr := by
  unfold commitOne at h
  split at h
  · exact rmFile_err h
  · repeat' split at h
    all_goals try cases h
    all_goals
      first
      | exact Or.inr rfl
      | (rename_i e' he'
         exact Or.inl (addFileToTree_err he'))

theorem foldCommit_err {F : Nat} {now : Time} {v : Version} :
    ∀ (l : List (FPath × String)) (acc : Store × Disk) (e : PyErr × Store × Disk),
      l.foldlM (commitOne F now v) acc = Except.error e →
      e.1 = PyErr.attrErr ∨ e.1 = PyErr.keyErr := by
  intro l
  induction l with
  | nil => intro acc e h; cases h
  | cons x xs ih =>
    intro acc e h
    rw [List.foldlM_cons] at h
    cases hx : commitOne F now v acc x with
    | error e' =>
      rw [hx] at h
      have : Except.error (ε := PyErr × Store × Disk) e' = Except.error e := h
      rw [Except.error.injEq] at this; subst this
      exact commitOne_err hx
    | ok acc' =>
      rw [hx] at h
      exact ih acc' e h

/-- C5: `commit(root)` raises the "not at present" error exactly when the
root's logical current time is strictly behind its last recorded
modification time (last Mod's version time, or its init time with an empty
log); and when it does, the error escapes before anything happened — the
carried state is the unchanged input store and disk, so no Version was
consumed, no Mod was appended, and the store was not persisted. -/
theorem c5_commit_not_at_present_iff (F : Nat) (st : Store) (d : Disk) (now : Time)
    (root : FileObject) (hr : st.find? st.rootId = some root) :
    (errOf (commit F st d now) = some PyErr.cairoNotAtPresent ↔
      root.curr_dt < lastChanged root) ∧
    (root.curr_dt < lastChanged root →
      commit F st d now = Except.error (PyErr.cairoNotAtPresent, st, d)) := by
  have hguard : root.curr_dt < lastChanged root →
      commit F st d now = Except.error (PyErr.cairoNotAtPresent, st, d) := by
    intro hlt
    unfold commit
    rw [hr]
    dsimp only
    rw [if_pos hlt]
  refine ⟨⟨?_, fun hlt => by rw [hguard hlt]; rfl⟩, hguard⟩
  intro herr
  by_contra hge
  unfold commit at herr
  rw [hr] at herr
  dsimp only at herr
  rw [if_neg hge] at herr
  revert herr
  cases hf : (sortByDepth (changedFiles F (mkVer st now).2 d root)).foldlM
      (commitOne F now (mkVer st now).1) ((mkVer st now).2, d) with
  | error e =>
    intro herr
    simp only [errOf] at herr
    have := foldCommit_err _ _ _ hf
    rw [Option.some.injEq] at herr
    rw [herr] at this
    rcases this with h | h <;> cases h
  | ok r =>
    cases hr2 : r.1.find? r.1.rootId with
    | none =>
      intro herr
      simp only [errOf, hr2] at herr
      cases herr
    | some root2 =>
      intro herr
      simp only [errOf, hr2] at herr
      cases herr

/-- Witness for C5: a root whose clock is behind its last Mod. -/
def exRootBehind : FileObject :=
  ⟨[], .null, 0, [⟨⟨9, 4⟩, .children []⟩], 0, true, [], 2⟩

/-- See `exRootBehind`. -/
def exStoreBehind : Store :=
  ⟨[(0, exRootBehind)], 0, ["ignore.txt", ".cairo.pkl"], 0, 10, 0⟩

/-- Witness for C5 at a concrete behind-the-present state. -/
theorem c5_commit_not_at_present_iff_witness :
    commit 4 exStoreBehind [] 6 =
      Except.error (PyErr.cairoNotAtPresent, exStoreBehind, []) :=
  (c5_commit_not_at_present_iff 4 exStoreBehind [] 6 exRootBehind (by decide)).2
    (by decide)

/-! ## Claim C8 (amended): characterizing `search_all` membership -/

/-- A per-Mod-version hit of `_query_in_data`. -/
def ModHit (ft : FileObject) (q : String) (x : FPath × Option Version) (m : Mod) : Prop :=
  ∃ ds, rd ft (some m.version.time) = .str ds ∧ pyInStr q ds = true ∧
    x = (rfp ft (some m.version.time), some m.version)

theorem queryInData_fold (q : String) (ft : FileObject) :
    ∀ (ms : List Mod) (acc res : List (FPath × Option Version)),
      ms.foldlM
        (fun acc m =>
          match rd ft (some m.version.time) with
          | .str ds =>
            some (if pyInStr q ds then
                acc ++ [(rfp ft (some m.version.time), some m.version)] else acc)
          | _ => none) acc = some res →
      ∀ x, x ∈ res ↔ x ∈ acc ∨ ∃ m ∈ ms, ModHit ft q x m := by
  intro ms
  induction ms with
  | nil =>
    intro acc res h x
    cases h
    simp
  | cons m ms ih =>
    intro acc res h x
    rw [List.foldlM_cons] at h
    cases hstep : rd ft (some m.version.time) with
    | str ds =>
      rw [hstep] at h
      have h2 : (ms.foldlM _ (if pyInStr q ds then
          acc ++ [(rfp ft (some m.version.time), some m.version)] else acc)) = some res := h
      have hx := ih _ res h2 x
      rw [hx]
      by_cases hin : pyInStr q ds = true
      · rw [if_pos hin]
        simp only [List.mem_append, List.mem_cons, List.not_mem_nil, or_false]
        constructor
        · rintro (⟨ha | hb⟩ | ⟨m', hm', hhit⟩)
          · exact Or.inl ha
          · exact Or.inr ⟨m, Or.inl rfl, ds, hstep, hin, hb⟩
          · exact Or.inr ⟨m', Or.inr hm', hhit⟩
        · rintro (ha | ⟨m', hm' | hm', hhit⟩)
          · exact Or.inl (Or.inl ha)
          · subst hm'
            obtain ⟨ds', hds', _, hxeq⟩ := hhit
            rw [hstep] at hds'
            cases hds'
            exact Or.inl (Or.inr hxeq)
          · exact Or.inr ⟨m', hm', hhit⟩
      · rw [if_neg hin]
        simp only [List.mem_cons]
        constructor
        · rintro (ha | ⟨m', hm', hhit⟩)
          · exact Or.inl ha
          · exact Or.inr ⟨m', Or.inr hm', hhit⟩
        · rintro (ha | ⟨m', hm' | hm', hhit⟩)
          · exact Or.inl ha
          · subst hm'
            obtain ⟨ds', hds', hin', hxeq⟩ := hhit
            rw [hstep] at hds'
            cases hds'
            exact absurd hin' hin
          · exact Or.inr ⟨m', hm', hhit⟩
    | bytes bs => rw [hstep] at h; cases h
    | null => rw [hstep] at h; cases h

theorem queryInData_mem (q : String) (ft : FileObject) (s : String)
    (hstr : ft.data = .str s) (res : List (FPath × Option Version))
    (h : queryInData ft q = some res) :
    ∀ x, x ∈ res ↔
      (pyInStr q s = true ∧ x = (ft.path, none)) ∨ ∃ m ∈ ft.mods, ModHit ft q x m := by
  unfold queryInData at h
  rw [hstr] at h
  intro x
  have := queryInData_fold q ft ft.mods _ res h x
  rw [this]
  by_cases hin : pyInStr q s = true
  · rw [if_pos hin] at *
    simp only [List.mem_singleton]
    tauto
  · rw [if_neg hin] at *
    simp only [List.not_mem_nil] at *
    tauto

theorem queryInData_nonstr (q : String) (ft : FileObject)
    (hstr : ∀ s, ft.data ≠ .str s) : queryInData ft q = some [] := by
  unfold queryInData
  cases hd : ft.data with
  | str s => exact absurd hd (hstr s)
  | bytes b => rfl
  | null => rfl

/-- The skip condition of `search_all`'s loop. -/
def SkipEntry (d : Disk) (root ft : FileObject) : Prop :=
  isDirOnDisk d (rfp ft none) = true ∨ isSubpath root.path ft.path = false

instance (d : Disk) (root ft : FileObject) : Decidable (SkipEntry d root ft) := by
  unfold SkipEntry; infer_instance

theorem skip_cond_eq (d : Disk) (root : FileObject) (ft : FileObject) :
    ((isDirOnDisk d (rfp ft none) || ¬ isSubpath root.path ft.path) = true) ↔
      SkipEntry d root ft := by
  simp [SkipEntry, Bool.or_eq_true, decide_eq_true_eq, Bool.not_eq_true]

theorem searchAll_fold (d : Disk) (root : FileObject) (q : String) :
    ∀ (entries : List (UUID × FileObject)) (acc res : List (FPath × Option Version)),
      entries.foldlM
        (fun vs p =>
          if isDirOnDisk d (rfp p.2 none) || ¬ isSubpath root.path p.2.path then some vs
          else (queryInData p.2 q).map (fun r => vs ++ r)) acc = some res →
      ∀ x, x ∈ res ↔ x ∈ acc ∨ ∃ pr ∈ entries, ¬ SkipEntry d root pr.2 ∧
        ∃ r, queryInData pr.2 q = some r ∧ x ∈ r := by
  intro entries
  induction entries with
  | nil =>
    intro acc res h x
    cases h
    simp
  | cons pr prs ih =>
    intro acc res h x
    rw [List.foldlM_cons] at h
    by_cases hsk : SkipEntry d root pr.2
    · rw [if_pos ((skip_cond_eq d root pr.2).mpr hsk)] at h
      have hx := ih acc res h x
      rw [hx]
      constructor
      · rintro (ha | ⟨pr', hpr', hcond⟩)
        · exact Or.inl ha
        · exact Or.inr ⟨pr', List.mem_cons_of_mem _ hpr', hcond⟩
      · rintro (ha | ⟨pr', hpr', hns, hcond⟩)
        · exact Or.inl ha
        · rcases List.mem_cons.mp hpr' with rfl | hpr'
          · exact absurd hsk hns
          · exact Or.inr ⟨pr', hpr', hns, hcond⟩
    · rw [if_neg (fun hb => hsk ((skip_cond_eq d root pr.2).mp hb))] at h
      cases hq : queryInData pr.2 q with
      | none => rw [hq] at h; cases h
      | some r =>
        rw [hq] at h
        have h2 : prs.foldlM _ (acc ++ r) = some res := h
        have hx := ih (acc ++ r) res h2 x
        rw [hx]
        have hns : ¬ SkipEntry d root pr.2 := hsk
        simp only [List.mem_append]
        constructor
        · rintro (⟨ha | hb⟩ | ⟨pr', hpr', hcond⟩)
          · exact Or.inl ha
          · exact Or.inr ⟨pr, List.mem_cons_self _ _, hns, r, hq, hb⟩
          · exact Or.inr ⟨pr', List.mem_cons_of_mem _ hpr', hcond⟩
        · rintro (ha | ⟨pr', hpr', hns', r', hq', hxr'⟩)
          · exact Or.inl (Or.inl ha)
          · rcases List.mem_cons.mp hpr' with rfl | hpr'
            · rw [hq] at hq'
              cases hq'
              exact Or.inl (Or.inr hxr')
            · exact Or.inr ⟨pr', hpr', hns', r', hq', hxr'⟩

theorem searchAll_fold_ok (d : Disk) (root : FileObject) (q : String) :
    ∀ (entries : List (UUID × FileObject)) (acc res : List (FPath × Option Version)),
      entries.foldlM
        (fun vs p =>
          if isDirOnDisk d (rfp p.2 none) || ¬ isSubpath root.path p.2.path then some vs
          else (queryInData p.2 q).map (fun r => vs ++ r)) acc = some res →
      ∀ pr ∈ entries, ¬ SkipEntry d root pr.2 → ∃ r, queryInData pr.2 q = some r := by
  intro entries
  induction entries with
  | nil => intro acc res _ pr hpr; cases hpr
  | cons pr0 prs ih =>
    intro acc res h pr hpr hns
    rw [List.foldlM_cons] at h
    by_cases hsk : SkipEntry d root pr0.2
    · rw [if_pos ((skip_cond_eq d root pr0.2).mpr hsk)] at h
      rcases List.mem_cons.mp hpr with rfl | hpr'
      · exact absurd hsk hns
      · exact ih acc res h pr hpr' hns
    · rw [if_neg (fun hb => hsk ((skip_cond_eq d root pr0.2).mp hb))] at h
      cases hq : queryInData pr0.2 q with
      | none => rw [hq] at h; cases h
      | some r =>
        rw [hq] at h
        rcases List.mem_cons.mp hpr with rfl | hpr'
        · exact ⟨r, hq⟩
        · exact ih (acc ++ r) res h pr hpr' hns

/-- C8 (amended): a `(path, None)` pair is emitted by `search_all` exactly
for entries that are not skipped (resolved path not a directory on disk,
base path below the root) whose **initial snapshot** data is a string
containing the query, with `path` the entry's **base** path — commits
never update that snapshot, so this is the initial rather than the current
data (`c8_search_all_counterexample`).  A `(path, version)` pair is
emitted exactly for such entries (whose base data is a string, or the
entry is skipped whole) with a Mod of that version at whose time the
resolved data is a string containing the query and the resolved path is
`path` — so a file moved while its content stayed constant yields one hit
per location it occupied. -/
theorem c8_search_all_spec (st : Store) (d : Disk) (root : FileObject) (q : String)
    (res : List (FPath × Option Version)) (hrun : searchAll st d root q = some res) :
    (∀ p : FPath, ((p, (none : Option Version)) ∈ res ↔
      ∃ pr ∈ st.index, ¬ SkipEntry d root pr.2 ∧
        ∃ s, pr.2.data = .str s ∧ pyInStr q s = true ∧ p = pr.2.path)) ∧
    (∀ (p : FPath) (v : Version), ((p, some v) ∈ res ↔
      ∃ pr ∈ st.index, ¬ SkipEntry d root pr.2 ∧ (∃ s, pr.2.data = Data.str s) ∧
        ∃ m ∈ pr.2.mods, m.version = v ∧ rfp pr.2 (some m.version.time) = p ∧
          ∃ ds, rd pr.2 (some m.version.time) = .str ds ∧ pyInStr q ds = true)) := by
  unfold searchAll at hrun
  have hfold := searchAll_fold d root q st.index [] res hrun
  have hok := searchAll_fold_ok d root q st.index [] res hrun
  constructor
  · intro p
    rw [hfold (p, none)]
    simp only [List.not_mem_nil, false_or]
    constructor
    · rintro ⟨pr, hpr, hns, r, hq, hmem⟩
      cases hdat : pr.2.data with
      | str s =>
        have := (queryInData_mem q pr.2 s hdat r hq (p, none)).mp hmem
        rcases this with ⟨hin, hx⟩ | ⟨m, _, _, _, _, hx⟩
        · have hp : p = pr.2.path := congrArg Prod.fst hx
          exact ⟨pr, hpr, hns, s, hdat, hin, hp⟩
        · exact absurd (congrArg Prod.snd hx) (by simp)
      | bytes b =>
        rw [queryInData_nonstr q pr.2 (by simp [hdat])] at hq
        cases hq
        cases hmem
      | null =>
        rw [queryInData_nonstr q pr.2 (by simp [hdat])] at hq
        cases hq
        cases hmem
    · rintro ⟨pr, hpr, hns, s, hdat, hin, rfl⟩
      obtain ⟨r, hq⟩ := hok pr hpr hns
      refine ⟨pr, hpr, hns, r, hq, ?_⟩
      exact (queryInData_mem q pr.2 s hdat r hq (pr.2.path, none)).mpr (Or.inl ⟨hin, rfl⟩)
  · intro p v
    rw [hfold (p, some v)]
    simp only [List.not_mem_nil, false_or]
    constructor
    · rintro ⟨pr, hpr, hns, r, hq, hmem⟩
      cases hdat : pr.2.data with
      | str s =>
        have := (queryInData_mem q pr.2 s hdat r hq (p, some v)).mp hmem
        rcases this with ⟨_, hx⟩ | ⟨m, hm, ds, hds, hin, hx⟩
        · exact absurd (congrArg Prod.snd hx) (by simp)
        · have hv : some v = some m.version := congrArg Prod.snd hx
          have hp : rfp pr.2 (some m.version.time) = p := (congrArg Prod.fst hx).symm
          exact ⟨pr, hpr, hns, ⟨s, hdat⟩, m, hm, (Option.some.inj hv).symm, hp, ds, hds, hin⟩
      | bytes b =>
        rw [queryInData_nonstr q pr.2 (by simp [hdat])] at hq
        cases hq
        cases hmem
      | null =>
        rw [queryInData_nonstr q pr.2 (by simp [hdat])] at hq
        cases hq
        cases hmem
    · rintro ⟨pr, hpr, hns, ⟨s, hdat⟩, m, hm, hv, hp, ds, hds, hin⟩
      obtain ⟨r, hq⟩ := hok pr hpr hns
      refine ⟨pr, hpr, hns, r, hq, ?_⟩
      refine (queryInData_mem q pr.2 s hdat r hq (p, some v)).mpr
        (Or.inr ⟨m, hm, ds, hds, hin, ?_⟩)
      rw [hp, hv]

/-! ## Store-update lemmas (shared by C6 and C9) -/

theorem find?_entry_id {st : Store} {c : UUID} {ch : FileObject}
    (hidx : ∀ p ∈ st.index, p.2.ID = p.1) (h : st.find? c = some ch) : ch.ID = c := by
  unfold Store.find? at h
  cases hfind : st.index.find? (fun p => p.1 = c) with
  | none => rw [hfind] at h; cases h
  | some pr =>
    rw [hfind] at h
    have hmem := List.mem_of_find?_eq_some hfind
    have hpred := List.find?_some hfind
    have h1 : pr.1 = c := by simpa using hpred
    have h2 : pr.2 = ch := Option.some.inj h
    rw [← h2, hidx pr hmem, h1]

theorem find?_entry_mem {st : Store} {c : UUID} {ch : FileObject}
    (h : st.find? c = some ch) : ∃ p ∈ st.index, p.2 = ch := by
  unfold Store.find? at h
  cases hfind : st.index.find? (fun p => p.1 = c) with
  | none => rw [hfind] at h; cases h
  | some pr =>
    rw [hfind] at h
    exact ⟨pr, List.mem_of_find?_eq_some hfind, Option.some.inj h⟩

theorem find?_of_mem_entry {st : Store} {c : UUID} {ch : FileObject}
    (hidx : ∀ p ∈ st.index, p.2.ID = p.1) (h : st.find? c = some ch) :
    st.find? ch.ID = some ch := by
  rw [find?_entry_id hidx h]; exact h

theorem lfind_map_eq (l : List (UUID × FileObject)) (id : UUID) (ft : FileObject)
    (h : (l.find? (fun p => p.1 = id)).isSome) :
    ((l.map (fun p => if p.1 = id then (id, ft) else p)).find?
        (fun p => p.1 = id)).map (·.2) = some ft := by
  induction l with
  | nil => cases h
  | cons p ps ih =>
    by_cases hp : p.1 = id
    · simp [List.find?_cons, hp]
    · rw [List.find?_cons_of_neg _ (by simpa using hp)] at h
      simp only [List.map_cons, if_neg hp]
      rw [List.find?_cons_of_neg _ (by simpa using hp)]
      exact ih h

theorem lfind_map_ne (l : List (UUID × FileObject)) (id : UUID) (ft : FileObject)
    (j : UUID) (h : j ≠ id) :
    ((l.map (fun p => if p.1 = id then (id, ft) else p)).find?
        (fun p => p.1 = j)) = l.find? (fun p => p.1 = j) := by
  induction l with
  | nil => rfl
  | cons p ps ih =>
    by_cases hp : p.1 = id
    · simp only [List.map_cons, if_pos hp]
      rw [List.find?_cons_of_neg _ (by simpa using h.symm),
        List.find?_cons_of_neg _ (by simp [hp]; exact fun hj => h (hj ▸ hp ▸ rfl))]
      exact ih
    · simp only [List.map_cons, if_neg hp]
      by_cases hj : p.1 = j
      · rw [List.find?_cons_of_pos _ (by simpa using hj),
          List.find?_cons_of_pos _ (by simpa using hj)]
      · rw [List.find?_cons_of_neg _ (by simpa using hj),
          List.find?_cons_of_neg _ (by simpa using hj)]
        exact ih

theorem Store.find?_set_eq (st : Store) (id : UUID) (ft : FileObject)
    (h : (st.find? id).isSome) : (st.set id ft).find? id = some ft := by
  unfold Store.find? at h ⊢
  unfold Store.set
  exact lfind_map_eq st.index id ft (by
    cases hfind : st.index.find? (fun p => p.1 = id) with
    | none => rw [hfind] at h; cases h
    | some pr => simp)

theorem Store.find?_set_ne (st : Store) (id : UUID) (ft : FileObject) (j : UUID)
    (h : j ≠ id) : (st.set id ft).find? j = st.find? j := by
  unfold Store.find? Store.set
  rw [lfind_map_ne st.index id ft j h]

theorem Store.find?_set_isSome (st : Store) (id : UUID) (ft : FileObject) (j : UUID) :
    ((st.set id ft).find? j).isSome = (st.find? j).isSome := by
  by_cases h : j = id
  · subst h
    cases hs : (st.find? j).isSome
    · have : st.find? j = none := by
        cases hv : st.find? j
        · rfl
        · rw [hv] at hs; cases hs
      unfold Store.find? at this ⊢
      unfold Store.set
      cases hfind : st.index.find? (fun p => p.1 = j) with
      | none =>
        rw [List.find?_eq_none] at hfind
        have : (st.index.map (fun p => if p.1 = j then (j, ft) else p)).find?
            (fun p => p.1 = j) = none := by
          rw [List.find?_eq_none]
          intro x hx
          obtain ⟨q, hq, hxq⟩ := List.mem_map.mp hx
          by_cases hqj : q.1 = j
          · exact absurd hqj (by simpa using hfind q hq)
          · rw [if_neg hqj] at hxq
            subst hxq
            simpa using hqj
        rw [this]
        rfl
      | some pr =>
        rw [hfind] at this
        cases this
    · rw [Store.find?_set_eq st j ft hs]
      rfl
  · rw [Store.find?_set_ne st id ft j h]

theorem addNewMod_some_find_eq (st : Store) (now : Time) (id : UUID) (val : ModVal)
    (v : Version) (ft : FileObject) (h : st.find? id = some ft) :
    (addNewMod st now id val (some v)).find? id =
      some { ft with mods := ft.mods ++ [⟨v, val⟩], curr_dt := v.time } := by
  unfold addNewMod
  dsimp only
  rw [h]
  exact Store.find?_set_eq st id _ (by rw [h]; rfl)

theorem addNewMod_some_find_ne (st : Store) (now : Time) (id : UUID) (val : ModVal)
    (v : Version) (j : UUID) (hj : j ≠ id) :
    (addNewMod st now id val (some v)).find? j = st.find? j := by
  unfold addNewMod
  dsimp only
  cases h : st.find? id with
  | none => rfl
  | some ft => exact Store.find?_set_ne st id _ j hj

theorem addNewMod_some_isSome (st : Store) (now : Time) (id : UUID) (val : ModVal)
    (v : Version) (j : UUID) :
    ((addNewMod st now id val (some v)).find? j).isSome = (st.find? j).isSome := by
  unfold addNewMod
  dsimp only
  cases h : st.find? id with
  | none => rfl
  | some ft => exact Store.find?_set_isSome st id _ j

/-- `resolve` of an entry whose log got one more `path` Mod. -/
theorem rfp_after_path_mod (ft : FileObject) (v : Version) (p : FPath) (cd : Time) :
    rfp { ft with mods := ft.mods ++ [⟨v, .path p⟩], curr_dt := cd } none = p := by
  have h := resolveAux_fields none { ft with mods := ft.mods ++ [⟨v, ModVal.path p⟩], curr_dt := cd }
    (ft.mods ++ [⟨v, ModVal.path p⟩])
  unfold FieldsSpec at h
  unfold rfp
  rw [resolve_eq_resolveAux]
  have := h.2.1
  simp only [appliedMods] at this
  rw [this, lastPath_concat]
  rfl

/-- `resolve` of an entry whose log got one more `children` Mod. -/
theorem rc_after_children_mod (ft : FileObject) (v : Version) (cs : List UUID) (cd : Time) :
    rc { ft with mods := ft.mods ++ [⟨v, .children cs⟩], curr_dt := cd } none = cs := by
  have h := resolveAux_fields none
    { ft with mods := ft.mods ++ [⟨v, ModVal.children cs⟩], curr_dt := cd }
    (ft.mods ++ [⟨v, ModVal.children cs⟩])
  unfold FieldsSpec at h
  unfold rc
  rw [resolve_eq_resolveAux]
  have := h.2.2.1
  simp only [appliedMods] at this
  rw [this, lastChildren_concat]
  rfl

/-- Every entry `find_file_path` returns lives in the index (under the
index-key invariant, with the root itself an index entry). -/
theorem findFilePath_mem_index :
    ∀ (F : Nat) (st : Store) (root ft : FileObject) (fp : FPath),
      (∀ p ∈ st.index, p.2.ID = p.1) → st.find? root.ID = some root →
      findFilePath F st root fp = some ft → st.find? ft.ID = some ft := by
  intro F
  induction F with
  | zero => intro st root ft fp _ _ h; cases h
  | succ F ih =>
    intro st root ft fp hidx hroot h
    unfold findFilePath at h
    by_cases heq : rfp root none = fp
    · rw [if_pos heq] at h
      cases h
      exact hroot
    · rw [if_neg heq] at h
      obtain ⟨c, hc, hsome⟩ := List.exists_of_findSome?_eq_some h
      cases hch : st.find? c with
      | none => rw [hch] at hsome; cases hsome
      | some ch =>
        rw [hch] at hsome
        exact ih st ch ft fp hidx (find?_of_mem_entry hidx hch) hsome

/-- Every version collected by `get_versions`' recursion comes from the
mods of the start entry or of an index entry. -/
theorem goVersions_mem_index :
    ∀ (F : Nat) (st : Store) (ft : FileObject) (w : Version),
      w ∈ goVersions F st ft →
      (∃ m ∈ ft.mods, m.version = w) ∨ ∃ p ∈ st.index, ∃ m ∈ p.2.mods, m.version = w := by
  intro F
  induction F with
  | zero => intro st ft w h; cases h
  | succ F ih =>
    intro st ft w h
    unfold goVersions at h
    rcases List.mem_append.mp h with h1 | h1
    · obtain ⟨m, hm, hv⟩ := List.mem_map.mp h1
      exact Or.inl ⟨m, hm, hv⟩
    · obtain ⟨c, _, hw⟩ := List.mem_flatMap.mp h1
      cases hch : st.find? c with
      | none => rw [hch] at hw; cases hw
      | some ch =>
        rw [hch] at hw
        rcases ih st ch w hw with ⟨m, hm, hv⟩ | hidx
        · obtain ⟨p, hp, hpch⟩ := find?_entry_mem hch
          exact Or.inr ⟨p, hp, hpch ▸ ⟨m, hm, hv⟩⟩
        · exact Or.inr hidx

/-- Versions reachable from an index entry are index versions. -/
theorem goVersions_sub_index (F : Nat) (st : Store) (root : FileObject) (w : Version)
    (hroot : ∃ p ∈ st.index, p.2 = root) (h : w ∈ goVersions F st root) :
    ∃ p ∈ st.index, ∃ m ∈ p.2.mods, m.version = w := by
  rcases goVersions_mem_index F st root w h with ⟨m, hm, hv⟩ | hidx
  · obtain ⟨p, hp, hpr⟩ := hroot
    exact ⟨p, hp, hpr ▸ ⟨m, hm, hv⟩⟩
  · exact hidx

theorem length_insertDescTime (x : Version) (l : List Version) :
    (insertDescTime x l).length = l.length + 1 := by
  induction l with
  | nil => rfl
  | cons y ys ih =>
    unfold insertDescTime
    by_cases h : x.time ≤ y.time
    · simp [h, ih]
    · simp [h]

theorem length_sortDescTime (l : List Version) : (sortDescTime l).length = l.length := by
  induction l with
  | nil => rfl
  | cons x xs ih =>
    unfold sortDescTime at ih ⊢
    rw [List.foldr_cons, length_insertDescTime, ih, List.length_cons]

theorem getVersions_length (F : Nat) (st : Store) (root : FileObject) :
    (getVersions F st root).length = (goVersions F st root).dedup.length := by
  unfold getVersions
  rw [length_sortDescTime]

/-- Adding exactly one fresh element to a collection, seen through
`dedup.length` (the cardinality `get_versions` reports). -/
theorem dedup_length_add_one {A B : List Version} {v : Version}
    (hiff : ∀ w, w ∈ A ↔ (w ∈ B ∨ w = v)) (hv : v ∉ B) :
    A.dedup.length = B.dedup.length + 1 := by
  have hA : A.toFinset = insert v B.toFinset := by
    ext w
    simp only [List.mem_toFinset, Finset.mem_insert, hiff]
    tauto
  calc A.dedup.length = A.toFinset.card := (List.card_toFinset A).symm
    _ = (insert v B.toFinset).card := by rw [hA]
    _ = B.toFinset.card + 1 :=
        Finset.card_insert_of_not_mem (by simpa [List.mem_toFinset] using hv)
    _ = B.dedup.length + 1 := by rw [List.card_toFinset]

/-- `Store.set` only rewrites values: the key sequence is untouched. -/
theorem set_keys (st : Store) (id : UUID) (ft : FileObject) :
    (st.set id ft).index.map Prod.fst = st.index.map Prod.fst := by
  unfold Store.set
  rw [List.map_map]
  refine List.map_congr_left (fun p _ => ?_)
  by_cases h : p.1 = id
  · simp [h]
  · simp [h]

theorem addNewMod_keys (st : Store) (now : Time) (id : UUID) (val : ModVal) (v : Version) :
    (addNewMod st now id val (some v)).index.map Prod.fst = st.index.map Prod.fst := by
  unfold addNewMod
  dsimp only
  cases h : st.find? id with
  | none => rfl
  | some ft => exact set_keys st id _

theorem mem_set_index {st : Store} {id : UUID} {ft : FileObject} {p : UUID × FileObject}
    (h : p ∈ (st.set id ft).index) : p = (id, ft) ∨ p ∈ st.index := by
  unfold Store.set at h
  obtain ⟨q, hq, hqp⟩ := List.mem_map.mp h
  by_cases hid : q.1 = id
  · rw [if_pos hid] at hqp; exact Or.inl hqp.symm
  · rw [if_neg hid] at hqp; exact Or.inr (hqp ▸ hq)

theorem mem_set_index_of_ne {st : Store} {id : UUID} {ft : FileObject}
    {p : UUID × FileObject} (h : p ∈ st.index) (hne : p.1 ≠ id) :
    p ∈ (st.set id ft).index := by
  unfold Store.set
  refine List.mem_map.mpr ⟨p, h, ?_⟩
  rw [if_neg hne]

theorem mem_set_index_of_eq {st : Store} {id : UUID} {ft : FileObject}
    {p : UUID × FileObject} (h : p ∈ st.index) (heq : p.1 = id) :
    (id, ft) ∈ (st.set id ft).index := by
  unfold Store.set
  exact List.mem_map.mpr ⟨p, h, by rw [if_pos heq]⟩

theorem addNewMod_mem_index {st : Store} {now : Time} {id : UUID} {val : ModVal}
    {v : Version} {e : FileObject} (he : st.find? id = some e) {p : UUID × FileObject}
    (h : p ∈ (addNewMod st now id val (some v)).index) :
    p = (id, { e with mods := e.mods ++ [⟨v, val⟩], curr_dt := v.time }) ∨ p ∈ st.index := by
  unfold addNewMod at h
  dsimp only at h
  rw [he] at h
  exact mem_set_index h

theorem addNewMod_mem_index_of_ne (st : Store) (now : Time) (id : UUID) (val : ModVal)
    (v : Version) {p : UUID × FileObject} (h : p ∈ st.index) (hne : p.1 ≠ id) :
    p ∈ (addNewMod st now id val (some v)).index := by
  unfold addNewMod
  dsimp only
  cases hf : st.find? id with
  | none => exact h
  | some e => exact mem_set_index_of_ne h hne

theorem lfind_of_mem_nodup :
    ∀ {l : List (UUID × FileObject)}, (l.map Prod.fst).Nodup →
      ∀ {p : UUID × FileObject}, p ∈ l → l.find? (fun q => q.1 = p.1) = some p := by
  intro l
  induction l with
  | nil => intro _ p hp; cases hp
  | cons q qs ih =>
    intro hkeys p hp
    rcases List.mem_cons.mp hp with rfl | hp'
    · rw [List.find?_cons_of_pos _ (by simp)]
    · rw [List.map_cons, List.nodup_cons] at hkeys
      have hqp : ¬ q.1 = p.1 := by
        intro hqe
        exact hkeys.1 (hqe ▸ List.mem_map.mpr ⟨p, hp', rfl⟩)
      rw [List.find?_cons_of_neg _ (by simpa using hqp)]
      exact ih hkeys.2 hp'

/-- With duplicate-free keys, an index entry is what `find?` returns. -/
theorem find?_of_mem_nodup {st : Store} (hkeys : (st.index.map Prod.fst).Nodup)
    {p : UUID × FileObject} (hp : p ∈ st.index) : st.find? p.1 = some p.2 := by
  unfold Store.find?
  rw [lfind_of_mem_nodup hkeys hp]
  rfl

theorem addNewMod_rootId (st : Store) (now : Time) (id : UUID) (val : ModVal)
    (v : Version) : (addNewMod st now id val (some v)).rootId = st.rootId := by
  unfold addNewMod
  dsimp only
  cases st.find? id <;> rfl

theorem addNewMod_idkeys {st : Store} {now : Time} {id : UUID} {val : ModVal}
    {v : Version} (hidx : ∀ p ∈ st.index, p.2.ID = p.1) :
    ∀ p ∈ (addNewMod st now id val (some v)).index, p.2.ID = p.1 := by
  intro p hp
  cases hf : st.find? id with
  | none =>
    unfold addNewMod at hp
    dsimp only at hp
    rw [hf] at hp
    exact hidx p hp
  | some e =>
    rcases addNewMod_mem_index hf hp with rfl | hp'
    · show e.ID = id
      exact find?_entry_id hidx hf
    · exact hidx p hp'

/-- Abstract counting argument: when the after-store's Mod versions are the
before-store's plus one fresh version `v`, and the `get_versions`
traversal spans the index on both sides, the distinct-version count grows
by exactly one. -/
theorem mv_versions_count (F2 : Nat) (st st' : Store) (root root' : FileObject)
    (v : Version)
    (hrootB : ∃ p ∈ st.index, p.2 = root)
    (hrootA : ∃ p ∈ st'.index, p.2 = root')
    (hfresh : ∀ p ∈ st.index, ∀ m ∈ p.2.mods, m.version ≠ v)
    (hspanB : ∀ p ∈ st.index, ∀ m ∈ p.2.mods, m.version ∈ goVersions F2 st root)
    (hspanA : ∀ p ∈ st'.index, ∀ m ∈ p.2.mods, m.version ∈ goVersions F2 st' root')
    (hAB : ∀ p ∈ st'.index, ∀ m ∈ p.2.mods,
        (∃ q ∈ st.index, ∃ m' ∈ q.2.mods, m'.version = m.version) ∨ m.version = v)
    (hBA : ∀ q ∈ st.index, ∀ m ∈ q.2.mods,
        ∃ p ∈ st'.index, ∃ m' ∈ p.2.mods, m'.version = m.version)
    (hvA : ∃ p ∈ st'.index, ∃ m ∈ p.2.mods, m.version = v) :
    (getVersions F2 st' root').length = (getVersions F2 st root).length + 1 := by
  rw [getVersions_length, getVersions_length]
  apply dedup_length_add_one (v := v)
  · intro w
    constructor
    · intro hw
      obtain ⟨p, hp, m, hm, hv⟩ := goVersions_sub_index F2 st' root' w hrootA hw
      rcases hAB p hp m hm with ⟨q, hq, m', hm', hv'⟩ | hveq
      · have := hspanB q hq m' hm'
        rw [hv', hv] at this
        exact Or.inl this
      · rw [hv] at hveq
        exact Or.inr hveq
    · intro hw
      rcases hw with hw | rfl
      · obtain ⟨q, hq, m, hm, hv⟩ := goVersions_sub_index F2 st root w hrootB hw
        obtain ⟨p, hp, m', hm', hv'⟩ := hBA q hq m hm
        have := hspanA p hp m' hm'
        rwa [hv', hv] at this
      · obtain ⟨p, hp, m, hm, hv⟩ := hvA
        have := hspanA p hp m hm
        rwa [hv] at this
  · intro hv
    obtain ⟨q, hq, m, hm, hveq⟩ := goVersions_sub_index F2 st root v hrootB hv
    exact hfresh q hq m hm hveq

/-- Witness for the amended C8 at the counterexample state: the historical
hit is characterized as stated. -/
theorem c8_search_all_spec_witness :
    (["f.txt"], some (⟨7, 3⟩ : Version)) ∈ [(["f.txt"], some (⟨7, 3⟩ : Version))] :=
  ((c8_search_all_spec exStoreSearch exDiskSearch exRootSearch "b"
      [(["f.txt"], some ⟨7, 3⟩)] (by decide)).2 ["f.txt"] ⟨7, 3⟩).mpr
    ⟨(1, exFileSearch), by decide, by decide, ⟨"a", by decide⟩,
      ⟨⟨7, 3⟩, .data (.str "b")⟩, by decide, by decide, by decide, "b", by decide, by decide⟩

/-! ## Claim C6: move consistency -/

theorem goVersions_congr (F : Nat) (st st' : Store) (h : st.index = st'.index) :
    ∀ ft : FileObject, goVersions F st ft = goVersions F st' ft := by
  have hf : ∀ c, st.find? c = st'.find? c := by
    intro c
    unfold Store.find?
    rw [h]
  induction F with
  | zero => intro ft; rfl
  | succ F ih =>
    intro ft
    unfold goVersions
    congr 1
    have hl : ∀ (l : List UUID),
        (l.flatMap fun c => match st.find? c with
          | some ch => goVersions F st ch
          | none => []) =
        (l.flatMap fun c => match st'.find? c with
          | some ch => goVersions F st' ch
          | none => []) := by
      intro l
      induction l with
      | nil => rfl
      | cons c cs ihl =>
        rw [List.flatMap_cons, List.flatMap_cons, ihl, hf c]
        congr 1
        cases st'.find? c with
        | none => rfl
        | some ch => exact ih ch
    exact hl (rc ft none)

theorem getVersions_congr (F : Nat) (st st' : Store) (h : st.index = st'.index)
    (ft : FileObject) : getVersions F st ft = getVersions F st' ft := by
  unfold getVersions
  rw [goVersions_congr F st st' h ft]

theorem addNewMod_mem_new (now : Time) (val : ModVal) (v : Version) {st : Store}
    {id : UUID} {e : FileObject} (he : st.find? id = some e)
    {q : UUID × FileObject} (hq : q ∈ st.index) (hq1 : q.1 = id) :
    (id, { e with mods := e.mods ++ [⟨v, val⟩], curr_dt := v.time }) ∈
      (addNewMod st now id val (some v)).index := by
  unfold addNewMod
  dsimp only
  rw [he]
  exact mem_set_index_of_eq hq hq1

/-- Running `mv_file` on a tracked file with tracked parents: the explicit
result state (three `_add_new_mod` calls sharing one fresh version,
a disk rename, and a save). -/
theorem mvFile_run (F : Nat) (st : Store) (d : Disk) (now : Time)
    (fp parentP : FPath) (root ft p1 p2 root2 : FileObject)
    (hroot : st.find? st.rootId = some root)
    (hdirP : isDirOnDisk d parentP = true)
    (hft : findFilePath F st root fp = some ft)
    (hp1 : findFilePath F st root (pathParent fp) = some p1)
    (hp2 : findFilePath F st root parentP = some p2)
    (hmem : ft.ID ∈ rc p1 none)
    (hp1I : st.find? p1.ID = some p1)
    (hp2I : st.find? p2.ID = some p2)
    (hroot2 :
      (addNewMod (addNewMod (addNewMod { st with nextId := st.nextId + 1 } now p1.ID
          (ModVal.children ((rc p1 none).erase ft.ID)) (some ⟨st.nextId, now⟩)) now p2.ID
          (ModVal.children (if ft.ID ∈ rc p2 none then rc p2 none
            else rc p2 none ++ [ft.ID])) (some ⟨st.nextId, now⟩)) now ft.ID
          (ModVal.path (parentP ++ [pathName fp])) (some ⟨st.nextId, now⟩)).find?
        (addNewMod (addNewMod (addNewMod { st with nextId := st.nextId + 1 } now p1.ID
          (ModVal.children ((rc p1 none).erase ft.ID)) (some ⟨st.nextId, now⟩)) now p2.ID
          (ModVal.children (if ft.ID ∈ rc p2 none then rc p2 none
            else rc p2 none ++ [ft.ID])) (some ⟨st.nextId, now⟩)) now ft.ID
          (ModVal.path (parentP ++ [pathName fp])) (some ⟨st.nextId, now⟩)).rootId =
        some root2) :
    mvFile F st d now fp parentP none =
      Except.ok (saveTree
        (addNewMod (addNewMod (addNewMod { st with nextId := st.nextId + 1 } now p1.ID
          (ModVal.children ((rc p1 none).erase ft.ID)) (some ⟨st.nextId, now⟩)) now p2.ID
          (ModVal.children (if ft.ID ∈ rc p2 none then rc p2 none
            else rc p2 none ++ [ft.ID])) (some ⟨st.nextId, now⟩)) now ft.ID
          (ModVal.path (parentP ++ [pathName fp])) (some ⟨st.nextId, now⟩))
        (diskRename d fp (parentP ++ [pathName fp])) root2 now) := by
  have hmv : mvChildOfParents { st with nextId := st.nextId + 1 } now ft.ID p1.ID p2.ID
      ⟨st.nextId, now⟩ =
      Except.ok (addNewMod (addNewMod { st with nextId := st.nextId + 1 } now p1.ID
        (ModVal.children ((rc p1 none).erase ft.ID)) (some ⟨st.nextId, now⟩)) now p2.ID
        (ModVal.children (if ft.ID ∈ rc p2 none then rc p2 none
          else rc p2 none ++ [ft.ID])) (some ⟨st.nextId, now⟩)) := by
    unfold mvChildOfParents
    rw [show ({ st with nextId := st.nextId + 1 } : Store).find? p1.ID = some p1 from hp1I,
      show ({ st with nextId := st.nextId + 1 } : Store).find? p2.ID = some p2 from hp2I]
    dsimp only
    rw [if_pos hmem]
  unfold mvFile
  rw [if_neg (not_not_intro hdirP), hroot]
  dsimp only
  rw [hft, hp1, hp2]
  dsimp only [mkVer]
  rw [hmv]
  dsimp only
  rw [hroot2]

/-- C6: after `mv_file(root, A, B)` on a tracked file `A` with tracked,
distinct parent directories, exactly one new Version `(st.nextId, now)`
exists — shared by the moved entry's `path` Mod and the `children` Mods of
both parents, with every other entry untouched; the moved entry's resolved
path is `B/name(A)`; the old parent's resolved children no longer contain
the entry's identifier while the new parent's do; and, the traversal of
`get_versions` spanning the index before and after (the spanning
hypotheses), the distinct-version count of `get_versions(root)` grows by
exactly one. -/
theorem c6_mv_file_consistency (F F2 : Nat) (st : Store) (d : Disk) (now : Time)
    (fp parentP : FPath) (root ft p1 p2 root' : FileObject)
    (hidx : ∀ p ∈ st.index, p.2.ID = p.1)
    (hkeys : (st.index.map Prod.fst).Nodup)
    (hroot : st.find? st.rootId = some root)
    (hdirP : isDirOnDisk d parentP = true)
    (hft : findFilePath F st root fp = some ft)
    (hp1 : findFilePath F st root (pathParent fp) = some p1)
    (hp2 : findFilePath F st root parentP = some p2)
    (hmem : ft.ID ∈ rc p1 none)
    (hnodup : (rc p1 none).Nodup)
    (hne12 : p1.ID ≠ p2.ID) (hneF1 : ft.ID ≠ p1.ID) (hneF2 : ft.ID ≠ p2.ID)
    (hfresh : ∀ p ∈ st.index, ∀ m ∈ p.2.mods, m.version ≠ (⟨st.nextId, now⟩ : Version))
    (hspanB : ∀ p ∈ st.index, ∀ m ∈ p.2.mods, m.version ∈ goVersions F2 st root)
    (hroot' : (okStore (mvFile F st d now fp parentP none)).find? st.rootId = some root')
    (hspanA : ∀ p ∈ (okStore (mvFile F st d now fp parentP none)).index, ∀ m ∈ p.2.mods,
        m.version ∈ goVersions F2 (okStore (mvFile F st d now fp parentP none)) root') :
    isOkE (mvFile F st d now fp parentP none) = true ∧
    (okStore (mvFile F st d now fp parentP none)).find? ft.ID =
      some { ft with
        mods := ft.mods ++ [⟨⟨st.nextId, now⟩, .path (parentP ++ [pathName fp])⟩],
        curr_dt := now } ∧
    rfp { ft with
        mods := ft.mods ++ [⟨⟨st.nextId, now⟩, .path (parentP ++ [pathName fp])⟩],
        curr_dt := now } none = parentP ++ [pathName fp] ∧
    (okStore (mvFile F st d now fp parentP none)).find? p1.ID =
      some { p1 with
        mods := p1.mods ++ [⟨⟨st.nextId, now⟩, .children ((rc p1 none).erase ft.ID)⟩],
        curr_dt := now } ∧
    ft.ID ∉ rc { p1 with
        mods := p1.mods ++ [⟨⟨st.nextId, now⟩, .children ((rc p1 none).erase ft.ID)⟩],
        curr_dt := now } none ∧
    (okStore (mvFile F st d now fp parentP none)).find? p2.ID =
      some { p2 with
        mods := p2.mods ++ [⟨⟨st.nextId, now⟩,
          .children (if ft.ID ∈ rc p2 none then rc p2 none else rc p2 none ++ [ft.ID])⟩],
        curr_dt := now } ∧
    ft.ID ∈ rc { p2 with
        mods := p2.mods ++ [⟨⟨st.nextId, now⟩,
          .children (if ft.ID ∈ rc p2 none then rc p2 none else rc p2 none ++ [ft.ID])⟩],
        curr_dt := now } none ∧
    (∀ j, j ≠ ft.ID → j ≠ p1.ID → j ≠ p2.ID →
      (okStore (mvFile F st d now fp parentP none)).find? j = st.find? j) ∧
    (getVersions F2 (okStore (mvFile F st d now fp parentP none)) root').length =
      (getVersions F2 st root).length + 1 := by
  have hrootID : st.find? root.ID = some root := find?_of_mem_entry hidx hroot
  have hftI : st.find? ft.ID = some ft :=
    findFilePath_mem_index F st root ft fp hidx hrootID hft
  have hp1I : st.find? p1.ID = some p1 :=
    findFilePath_mem_index F st root p1 (pathParent fp) hidx hrootID hp1
  have hp2I : st.find? p2.ID = some p2 :=
    findFilePath_mem_index F st root p2 parentP hidx hrootID hp2
  set v : Version := ⟨st.nextId, now⟩ with hvdef
  set stA : Store := { st with nextId := st.nextId + 1 } with hstAdef
  set st2 : Store :=
    addNewMod (addNewMod stA now p1.ID (.children ((rc p1 none).erase ft.ID)) (some v))
      now p2.ID
      (.children (if ft.ID ∈ rc p2 none then rc p2 none else rc p2 none ++ [ft.ID]))
      (some v) with hst2def
  set st3 : Store :=
    addNewMod st2 now ft.ID (.path (parentP ++ [pathName fp])) (some v) with hst3def
  have hstAp1 : stA.find? p1.ID = some p1 := hp1I
  have hstAp2 : stA.find? p2.ID = some p2 := hp2I
  have hstAft : stA.find? ft.ID = some ft := hftI
  have h2ft : st2.find? ft.ID = some ft := by
    rw [hst2def, addNewMod_some_find_ne _ _ _ _ _ _ hneF2,
      addNewMod_some_find_ne _ _ _ _ _ _ hneF1]
    exact hstAft
  have h3ft : st3.find? ft.ID =
      some { ft with
        mods := ft.mods ++ [⟨v, .path (parentP ++ [pathName fp])⟩],
        curr_dt := v.time } := by
    rw [hst3def]
    exact addNewMod_some_find_eq st2 now ft.ID _ v ft h2ft
  have h1p1 : (addNewMod stA now p1.ID (.children ((rc p1 none).erase ft.ID))
      (some v)).find? p1.ID =
      some { p1 with
        mods := p1.mods ++ [⟨v, .children ((rc p1 none).erase ft.ID)⟩],
        curr_dt := v.time } :=
    addNewMod_some_find_eq stA now p1.ID _ v p1 hstAp1
  have h3p1 : st3.find? p1.ID =
      some { p1 with
        mods := p1.mods ++ [⟨v, .children ((rc p1 none).erase ft.ID)⟩],
        curr_dt := v.time } := by
    rw [hst3def, addNewMod_some_find_ne _ _ _ _ _ _ (Ne.symm hneF1), hst2def,
      addNewMod_some_find_ne _ _ _ _ _ _ hne12]
    exact h1p1
  have h1p2 : (addNewMod stA now p1.ID (.children ((rc p1 none).erase ft.ID))
      (some v)).find? p2.ID = some p2 := by
    rw [addNewMod_some_find_ne _ _ _ _ _ _ (Ne.symm hne12)]
    exact hstAp2
  have h2p2 : st2.find? p2.ID =
      some { p2 with
        mods := p2.mods ++ [⟨v,
          .children (if ft.ID ∈ rc p2 none then rc p2 none else rc p2 none ++ [ft.ID])⟩],
        curr_dt := v.time } := by
    rw [hst2def]
    exact addNewMod_some_find_eq _ now p2.ID _ v p2 h1p2
  have h3p2 : st3.find? p2.ID =
      some { p2 with
        mods := p2.mods ++ [⟨v,
          .children (if ft.ID ∈ rc p2 none then rc p2 none else rc p2 none ++ [ft.ID])⟩],
        curr_dt := v.time } := by
    rw [hst3def, addNewMod_some_find_ne _ _ _ _ _ _ (Ne.symm hneF2)]
    exact h2p2
  have h3other : ∀ j, j ≠ ft.ID → j ≠ p1.ID → j ≠ p2.ID →
      st3.find? j = st.find? j := by
    intro j hjf hj1 hj2
    rw [hst3def, addNewMod_some_find_ne _ _ _ _ _ _ hjf, hst2def,
      addNewMod_some_find_ne _ _ _ _ _ _ hj2, addNewMod_some_find_ne _ _ _ _ _ _ hj1]
    rfl
  have hrid3 : st3.rootId = st.rootId := by
    rw [hst3def, addNewMod_rootId, hst2def, addNewMod_rootId, addNewMod_rootId]
  have hsome3 : (st3.find? st.rootId).isSome = true := by
    rw [hst3def, addNewMod_some_isSome, hst2def, addNewMod_some_isSome,
      addNewMod_some_isSome, show stA.find? st.rootId = st.find? st.rootId from rfl,
      hroot]
    rfl
  obtain ⟨root2, hroot2⟩ := Option.isSome_iff_exists.mp hsome3
  have hroot2R : st3.find? st3.rootId = some root2 := by rw [hrid3]; exact hroot2
  have hrun : mvFile F st d now fp parentP none =
      Except.ok (saveTree st3 (diskRename d fp (parentP ++ [pathName fp])) root2 now) :=
    mvFile_run F st d now fp parentP root ft p1 p2 root2 hroot hdirP hft hp1 hp2 hmem
      hp1I hp2I hroot2R
  have hok : okStore (mvFile F st d now fp parentP none) =
      { st3 with saved := st3.saved + 1 } := by
    rw [hrun]
    rfl
  have hfindok : ∀ j, (okStore (mvFile F st d now fp parentP none)).find? j =
      st3.find? j := by
    intro j
    rw [hok]
    rfl
  have hAB : ∀ p ∈ st3.index, ∀ m ∈ p.2.mods,
      (∃ q ∈ st.index, ∃ m' ∈ q.2.mods, m'.version = m.version) ∨ m.version = v := by
    intro p hp m hm
    rw [hst3def] at hp
    rcases addNewMod_mem_index h2ft hp with rfl | hp2m
    · rcases List.mem_append.mp hm with hm1 | hm1
      · obtain ⟨q, hq, hq2⟩ := find?_entry_mem hftI
        exact Or.inl ⟨q, hq, hq2 ▸ ⟨m, hm1, rfl⟩⟩
      · rw [List.mem_singleton] at hm1
        subst hm1
        exact Or.inr rfl
    · rw [hst2def] at hp2m
      rcases addNewMod_mem_index h1p2 hp2m with rfl | hp1m
      · rcases List.mem_append.mp hm with hm1 | hm1
        · obtain ⟨q, hq, hq2⟩ := find?_entry_mem hp2I
          exact Or.inl ⟨q, hq, hq2 ▸ ⟨m, hm1, rfl⟩⟩
        · rw [List.mem_singleton] at hm1
          subst hm1
          exact Or.inr rfl
      · rcases addNewMod_mem_index hstAp1 hp1m with rfl | hpAm
        · rcases List.mem_append.mp hm with hm1 | hm1
          · obtain ⟨q, hq, hq2⟩ := find?_entry_mem hp1I
            exact Or.inl ⟨q, hq, hq2 ▸ ⟨m, hm1, rfl⟩⟩
          · rw [List.mem_singleton] at hm1
            subst hm1
            exact Or.inr rfl
        · exact Or.inl ⟨p, hpAm, m, hm, rfl⟩
  have hBA : ∀ q ∈ st.index, ∀ m ∈ q.2.mods,
      ∃ p ∈ st3.index, ∃ m' ∈ p.2.mods, m'.version = m.version := by
    intro q hq m hm
    by_cases h1 : q.1 = p1.ID
    · have hq2 : q.2 = p1 := by
        have h := find?_of_mem_nodup hkeys hq
        rw [h1] at h
        exact Option.some.inj (h.symm.trans hp1I)
      have e1 := addNewMod_mem_new now (ModVal.children ((rc p1 none).erase ft.ID)) v
        hstAp1 (show q ∈ stA.index from hq) h1
      have e2 := addNewMod_mem_index_of_ne
        (addNewMod stA now p1.ID (.children ((rc p1 none).erase ft.ID)) (some v)) now
        p2.ID (.children (if ft.ID ∈ rc p2 none then rc p2 none
          else rc p2 none ++ [ft.ID])) v e1 hne12
      have e3 := addNewMod_mem_index_of_ne st2 now ft.ID
        (.path (parentP ++ [pathName fp])) v
        (by rw [hst2def]; exact e2) (Ne.symm hneF1)
      refine ⟨_, by rw [hst3def]; exact e3, m, ?_, rfl⟩
      exact List.mem_append.mpr (Or.inl (hq2 ▸ hm))
    · by_cases h2 : q.1 = p2.ID
      · have hq2 : q.2 = p2 := by
          have h := find?_of_mem_nodup hkeys hq
          rw [h2] at h
          exact Option.some.inj (h.symm.trans hp2I)
        have e1 := addNewMod_mem_index_of_ne stA now p1.ID
          (.children ((rc p1 none).erase ft.ID)) v
          (show q ∈ stA.index from hq) h1
        have e2 := addNewMod_mem_new now
          (ModVal.children (if ft.ID ∈ rc p2 none then rc p2 none
            else rc p2 none ++ [ft.ID])) v h1p2 e1 h2
        have e3 := addNewMod_mem_index_of_ne st2 now ft.ID
          (.path (parentP ++ [pathName fp])) v
          (by rw [hst2def]; exact e2) (Ne.symm hneF2)
        refine ⟨_, by rw [hst3def]; exact e3, m, ?_, rfl⟩
        exact List.mem_append.mpr (Or.inl (hq2 ▸ hm))
      · by_cases h3 : q.1 = ft.ID
        · have hq2 : q.2 = ft := by
            have h := find?_of_mem_nodup hkeys hq
            rw [h3] at h
            exact Option.some.inj (h.symm.trans hftI)
          have e1 := addNewMod_mem_index_of_ne stA now p1.ID
            (.children ((rc p1 none).erase ft.ID)) v
            (show q ∈ stA.index from hq) h1
          have e2 := addNewMod_mem_index_of_ne
            (addNewMod stA now p1.ID (.children ((rc p1 none).erase ft.ID)) (some v))
            now p2.ID (.children (if ft.ID ∈ rc p2 none then rc p2 none
              else rc p2 none ++ [ft.ID])) v e1 h2
          have e3 := addNewMod_mem_new now
            (ModVal.path (parentP ++ [pathName fp])) v h2ft
            (by rw [hst2def]; exact e2) h3
          refine ⟨_, by rw [hst3def]; exact e3, m, ?_, rfl⟩
          exact List.mem_append.mpr (Or.inl (hq2 ▸ hm))
        · have e1 := addNewMod_mem_index_of_ne stA now p1.ID
            (.children ((rc p1 none).erase ft.ID)) v
            (show q ∈ stA.index from hq) h1
          have e2 := addNewMod_mem_index_of_ne
            (addNewMod stA now p1.ID (.children ((rc p1 none).erase ft.ID)) (some v))
            now p2.ID (.children (if ft.ID ∈ rc p2 none then rc p2 none
              else rc p2 none ++ [ft.ID])) v e1 h2
          have e3 := addNewMod_mem_index_of_ne st2 now ft.ID
            (.path (parentP ++ [pathName fp])) v
            (by rw [hst2def]; exact e2) h3
          exact ⟨q, by rw [hst3def]; exact e3, m, hm, rfl⟩
  have hvA : ∃ p ∈ st3.index, ∃ m ∈ p.2.mods, m.version = v := by
    obtain ⟨p, hp, hp2v⟩ := find?_entry_mem h3ft
    refine ⟨p, hp, ⟨v, .path (parentP ++ [pathName fp])⟩, ?_, rfl⟩
    rw [hp2v]
    exact List.mem_append.mpr (Or.inr (List.mem_singleton.mpr rfl))
  have hroot'3 : st3.find? st.rootId = some root' := by
    rw [hok] at hroot'
    exact hroot'
  have hspanA3 : ∀ p ∈ st3.index, ∀ m ∈ p.2.mods,
      m.version ∈ goVersions F2 st3 root' := by
    intro p hp m hm
    have hx := hspanA p (by rw [hok]; exact hp) m hm
    rw [hok, goVersions_congr F2 { st3 with saved := st3.saved + 1 } st3 rfl root'] at hx
    exact hx
  refine ⟨by rw [hrun]; rfl, ?_, ?_, ?_, ?_, ?_, ?_, ?_, ?_⟩
  · rw [hfindok]
    exact h3ft
  · exact rfp_after_path_mod ft v (parentP ++ [pathName fp]) now
  · rw [hfindok]
    exact h3p1
  · rw [show (rc { p1 with
        mods := p1.mods ++ [⟨⟨st.nextId, now⟩, .children ((rc p1 none).erase ft.ID)⟩],
        curr_dt := now } none) = (rc p1 none).erase ft.ID from
      rc_after_children_mod p1 v ((rc p1 none).erase ft.ID) now]
    exact hnodup.not_mem_erase
  · rw [hfindok]
    exact h3p2
  · rw [show (rc { p2 with
        mods := p2.mods ++ [⟨⟨st.nextId, now⟩,
          .children (if ft.ID ∈ rc p2 none then rc p2 none else rc p2 none ++ [ft.ID])⟩],
        curr_dt := now } none) =
        (if ft.ID ∈ rc p2 none then rc p2 none else rc p2 none ++ [ft.ID]) from
      rc_after_children_mod p2 v _ now]
    by_cases hm2 : ft.ID ∈ rc p2 none
    · rw [if_pos hm2]
      exact hm2
    · rw [if_neg hm2]
      exact List.mem_append.mpr (Or.inr (List.mem_singleton.mpr rfl))
  · intro j hjf hj1 hj2
    rw [hfindok]
    exact h3other j hjf hj1 hj2
  · rw [hok, getVersions_congr F2 { st3 with saved := st3.saved + 1 } st3 rfl root']
    exact mv_versions_count F2 st st3 root root' v (find?_entry_mem hroot)
      (find?_entry_mem hroot'3) hfresh hspanB hspanA3 hAB hBA hvA

/-! Witness state for C6: root tracking directories `a` (holding `a/f.txt`)
and `b`; the file is moved from `a` to `b`. -/

def exRootMv : FileObject := ⟨[], .null, 0, [], 0, true, [1, 2], 0⟩

def exP1Mv : FileObject := ⟨["a"], .null, 1, [], 0, true, [3], 0⟩

def exP2Mv : FileObject := ⟨["b"], .null, 2, [], 0, true, [], 0⟩

def exFtMv : FileObject := ⟨["a", "f.txt"], .str "x", 3, [], 0, false, [], 0⟩

def exStoreMv : Store :=
  ⟨[(0, exRootMv), (1, exP1Mv), (2, exP2Mv), (3, exFtMv)], 0,
   ["ignore.txt", ".cairo.pkl"], 0, 4, 0⟩

def exDiskMv : Disk :=
  [⟨[], true, .null, 0⟩, ⟨[".cairo.pkl"], false, .bytes [], 0⟩, ⟨["a"], true, .null, 0⟩,
   ⟨["b"], true, .null, 0⟩, ⟨["a", "f.txt"], false, .str "x", 0⟩]

/-! ## Claim C9: the Entry Index never loses entries, and child references
stay live -/

/-- One entry's reference condition: its base children and every `children`
Mod value point at identifiers present in the index. -/
def entryRefsOkB (st : Store) (e : FileObject) : Bool :=
  e.children.all (fun c => (st.find? c).isSome) &&
  e.mods.all (fun m =>
    match m.val with
    | .children cs => cs.all (fun c => (st.find? c).isSome)
    | _ => true)

/-- The C9 invariant over the whole index. -/
def liveRefsB (st : Store) : Bool :=
  st.index.all (fun p => entryRefsOkB st p.2)

theorem entryRefsOkB_iff (st : Store) (e : FileObject) :
    entryRefsOkB st e = true ↔
      ((∀ c ∈ e.children, (st.find? c).isSome = true) ∧
        ∀ m ∈ e.mods, ∀ cs, m.val = .children cs →
          ∀ c ∈ cs, (st.find? c).isSome = true) := by
  unfold entryRefsOkB
  rw [Bool.and_eq_true, List.all_eq_true, List.all_eq_true]
  constructor
  · rintro ⟨h1, h2⟩
    refine ⟨h1, fun m hm cs hcs c hc => ?_⟩
    have := h2 m hm
    rw [hcs] at this
    rw [List.all_eq_true] at this
    exact this c hc
  · rintro ⟨h1, h2⟩
    refine ⟨h1, fun m hm => ?_⟩
    cases hv : m.val with
    | children cs =>
      rw [List.all_eq_true]
      exact h2 m hm cs hv
    | data dd => rfl
    | path pp => rfl

theorem liveRefsB_iff (st : Store) :
    liveRefsB st = true ↔ ∀ p ∈ st.index, entryRefsOkB st p.2 = true := by
  unfold liveRefsB
  rw [List.all_eq_true]

/-- The resolved children of an entry are its base children or the value of
one of its `children` Mods. -/
theorem rc_cases (e : FileObject) (dt : Option Time) :
    rc e dt = e.children ∨ ∃ m ∈ e.mods, m.val = .children (rc e dt) := by
  have h := resolveAux_fields dt e e.mods
  unfold FieldsSpec at h
  have hc := h.2.2.1
  rw [← resolve_eq_resolveAux] at hc
  unfold rc
  cases hlast : lastChildren (appliedMods dt e.mods) with
  | none =>
    rw [hlast] at hc
    exact Or.inl hc
  | some cs =>
    rw [hlast] at hc
    right
    unfold lastChildren at hlast
    have hmem := List.mem_of_mem_getLast? hlast
    obtain ⟨m, hm, hmv⟩ := List.mem_filterMap.mp hmem
    have hm' : m ∈ e.mods := by
      cases dt with
      | none => exact hm
      | some t => exact List.mem_of_mem_filter hm
    refine ⟨m, hm', ?_⟩
    cases hval : m.val with
    | children cs' =>
      rw [hval] at hmv
      cases hmv
      rw [hc]
      rfl
    | data dd => rw [hval] at hmv; cases hmv
    | path pp => rw [hval] at hmv; cases hmv

/-- Under the invariant, every identifier in any entry's resolved children
set (at any stop time) references a live index entry. -/
theorem liveRefs_resolved (st : Store) (hlive : liveRefsB st = true) :
    ∀ p ∈ st.index, ∀ dt : Option Time, ∀ c ∈ rc p.2 dt,
      (st.find? c).isSome = true := by
  intro p hp dt c hc
  have he := (entryRefsOkB_iff st p.2).mp ((liveRefsB_iff st).mp hlive p hp)
  rcases rc_cases p.2 dt with hbase | ⟨m, hm, hval⟩
  · exact he.1 c (hbase ▸ hc)
  · exact he.2 m hm (rc p.2 dt) hval c hc

theorem find?_isSome_iff (st : Store) (j : UUID) :
    (st.find? j).isSome = true ↔ j ∈ st.index.map Prod.fst := by
  unfold Store.find?
  cases hf : st.index.find? (fun p => p.1 = j) with
  | none =>
    constructor
    · intro h
      simp [hf] at h
    · intro h
      exfalso
      obtain ⟨q, hq, hqj⟩ := List.mem_map.mp h
      rw [List.find?_eq_none] at hf
      have hne : ¬ q.1 = j := by simpa using hf q hq
      exact hne hqj
  | some q =>
    constructor
    · intro _
      have hqm := List.mem_of_find?_eq_some hf
      have hqp : q.1 = j := by simpa using List.find?_some hf
      exact List.mem_map.mpr ⟨q, hqm, hqp⟩
    · intro _
      simp [hf]

theorem keys_eq_isSome {st st' : Store}
    (h : st'.index.map Prod.fst = st.index.map Prod.fst) (j : UUID) :
    ((st'.find? j).isSome = true) ↔ ((st.find? j).isSome = true) := by
  rw [find?_isSome_iff, find?_isSome_iff, h]

theorem addNewModO_keys (st : Store) (now : Time) (id : UUID) (val : ModVal)
    (ver : Option Version) :
    (addNewMod st now id val ver).index.map Prod.fst = st.index.map Prod.fst := by
  cases ver with
  | some v => exact addNewMod_keys st now id val v
  | none =>
    unfold addNewMod
    dsimp only [mkVer]
    cases h : Store.find? { st with nextId := st.nextId + 1 } id with
    | none => rfl
    | some ft => exact set_keys _ id _

theorem addNewModO_mem_index {st : Store} {now : Time} {id : UUID} {val : ModVal}
    {ver : Option Version} {p : UUID × FileObject}
    (h : p ∈ (addNewMod st now id val ver).index) :
    p ∈ st.index ∨ ∃ e v', st.find? id = some e ∧
      p = (id, { e with mods := e.mods ++ [⟨v', val⟩], curr_dt := v'.time }) := by
  cases ver with
  | some v =>
    cases hf : st.find? id with
    | none =>
      unfold addNewMod at h
      dsimp only at h
      rw [hf] at h
      exact Or.inl h
    | some e =>
      rcases addNewMod_mem_index hf h with rfl | h'
      · exact Or.inr ⟨e, v, rfl, rfl⟩
      · exact Or.inl h'
  | none =>
    unfold addNewMod at h
    dsimp only [mkVer] at h
    cases hf : Store.find? { st with nextId := st.nextId + 1 } id with
    | none =>
      rw [hf] at h
      exact Or.inl h
    | some e =>
      rw [hf] at h
      rcases mem_set_index h with rfl | h'
      · exact Or.inr ⟨e, ⟨st.nextId, now⟩, hf, rfl⟩
      · exact Or.inl h'

theorem addNewModO_idkeys {st : Store} {now : Time} {id : UUID} {val : ModVal}
    {ver : Option Version} (hidx : ∀ p ∈ st.index, p.2.ID = p.1) :
    ∀ p ∈ (addNewMod st now id val ver).index, p.2.ID = p.1 := by
  intro p hp
  rcases addNewModO_mem_index hp with hp' | ⟨e, v', hf, rfl⟩
  · exact hidx p hp'
  · show e.ID = id
    exact find?_entry_id hidx hf

theorem lfind_append_left (l l2 : List (UUID × FileObject))
    (p : UUID × FileObject → Bool) (h : (l.find? p).isSome = true) :
    (l ++ l2).find? p = l.find? p := by
  induction l with
  | nil => cases h
  | cons q qs ih =>
    by_cases hq : p q = true
    · rw [List.cons_append, List.find?_cons_of_pos _ hq, List.find?_cons_of_pos _ hq]
    · rw [List.find?_cons_of_neg _ hq] at h
      rw [List.cons_append, List.find?_cons_of_neg _ hq, List.find?_cons_of_neg _ hq]
      exact ih h

theorem lfind_append_none (l l2 : List (UUID × FileObject))
    (p : UUID × FileObject → Bool) (h : l.find? p = none) :
    (l ++ l2).find? p = l2.find? p := by
  induction l with
  | nil => rfl
  | cons q qs ih =>
    by_cases hq : p q = true
    · rw [List.find?_cons_of_pos _ hq] at h
      cases h
    · rw [List.find?_cons_of_neg _ hq] at h
      rw [List.cons_append, List.find?_cons_of_neg _ hq]
      exact ih h

theorem insert_find?_of_isSome (st : Store) (ft : FileObject) (j : UUID)
    (h : (st.find? j).isSome = true) : (st.insert ft).find? j = st.find? j := by
  unfold Store.find? Store.insert at *
  rw [lfind_append_left]
  cases hf : st.index.find? (fun p => p.1 = j) with
  | none => rw [hf] at h; cases h
  | some q => simp

theorem insert_find?_self (st : Store) (ft : FileObject)
    (hnone : st.find? ft.ID = none) : (st.insert ft).find? ft.ID = some ft := by
  unfold Store.find? Store.insert at *
  rw [lfind_append_none]
  · rw [List.find?_cons_of_pos _ (by simp)]
    rfl
  · cases hf : st.index.find? (fun p => p.1 = ft.ID) with
    | none => rfl
    | some q => rw [hf] at hnone; cases hnone

theorem insert_isSome_mono (st : Store) (ft : FileObject) (j : UUID)
    (h : (st.find? j).isSome = true) : ((st.insert ft).find? j).isSome = true := by
  rw [insert_find?_of_isSome st ft j h]
  exact h

/-- Identifier bound: every index key is below the fresh-id counter. -/
def IdBound (st : Store) : Prop := ∀ p ∈ st.index, p.1 < st.nextId

theorem idBound_find?_none {st : Store} (hb : IdBound st) : st.find? st.nextId = none := by
  unfold Store.find?
  rw [List.find?_eq_none.mpr]
  · rfl
  · intro p hp
    simp only [decide_eq_true_eq]
    exact Nat.ne_of_lt (hb p hp)

theorem entryRefsOkB_mono {st st' : Store} {e : FileObject}
    (h : ∀ j, (st.find? j).isSome = true → (st'.find? j).isSome = true)
    (he : entryRefsOkB st e = true) : entryRefsOkB st' e = true := by
  rw [entryRefsOkB_iff] at he ⊢
  exact ⟨fun c hc => h c (he.1 c hc),
    fun m hm cs hcs c hc => h c (he.2 m hm cs hcs c hc)⟩

theorem liveRefs_addNewModO (st : Store) (now : Time) (id : UUID) (val : ModVal)
    (ver : Option Version) (hlive : liveRefsB st = true)
    (hval : ∀ cs, val = .children cs → ∀ c ∈ cs, (st.find? c).isSome = true) :
    liveRefsB (addNewMod st now id val ver) = true := by
  have hkeys := addNewModO_keys st now id val ver
  have hiso := fun j => (keys_eq_isSome hkeys j).mpr
  rw [liveRefsB_iff]
  intro p hp
  rcases addNewModO_mem_index hp with hp' | ⟨e, v', hf, rfl⟩
  · exact entryRefsOkB_mono hiso ((liveRefsB_iff st).mp hlive p hp')
  · obtain ⟨q, hq, hq2⟩ := find?_entry_mem hf
    have he0 := (liveRefsB_iff st).mp hlive q hq
    rw [hq2] at he0
    have he := (entryRefsOkB_iff st e).mp he0
    refine entryRefsOkB_mono hiso ?_
    rw [entryRefsOkB_iff]
    constructor
    · exact he.1
    · intro m hm cs hcs c hc
      rcases List.mem_append.mp hm with hm1 | hm1
      · exact he.2 m hm1 cs hcs c hc
      · rw [List.mem_singleton] at hm1
        subst hm1
        simp only at hcs
        exact hval cs hcs c hc

theorem liveRefs_insert (st : Store) (ft : FileObject) (hlive : liveRefsB st = true)
    (hok : entryRefsOkB (st.insert ft) ft = true) :
    liveRefsB (st.insert ft) = true := by
  rw [liveRefsB_iff]
  intro p hp
  unfold Store.insert at hp
  rcases List.mem_append.mp hp with hp1 | hp1
  · exact entryRefsOkB_mono (insert_isSome_mono st ft)
      ((liveRefsB_iff st).mp hlive p hp1)
  · rw [List.mem_singleton] at hp1
    subst hp1
    exact hok

theorem findFileParent_mem_index :
    ∀ (F : Nat) (st : Store) (root child ft : FileObject),
      (∀ p ∈ st.index, p.2.ID = p.1) → st.find? root.ID = some root →
      findFileParent F st root child = some ft → st.find? ft.ID = some ft := by
  intro F
  induction F with
  | zero => intro st root child ft _ _ h; cases h
  | succ F ih =>
    intro st root child ft hidx hroot h
    unfold findFileParent at h
    by_cases heq : child.ID ∈ rc root none
    · rw [if_pos heq] at h
      cases h
      exact hroot
    · rw [if_neg heq] at h
      obtain ⟨c, _, hsome⟩ := List.exists_of_findSome?_eq_some h
      cases hch : st.find? c with
      | none => rw [hch] at hsome; cases hsome
      | some ch =>
        rw [hch] at hsome
        exact ih st ch child ft hidx (find?_of_mem_entry hidx hch) hsome

theorem addNewModO_rootId (st : Store) (now : Time) (id : UUID) (val : ModVal)
    (ver : Option Version) : (addNewMod st now id val ver).rootId = st.rootId := by
  cases ver with
  | some v => exact addNewMod_rootId st now id val v
  | none =>
    unfold addNewMod
    dsimp only [mkVer]
    cases Store.find? { st with nextId := st.nextId + 1 } id <;> rfl

theorem addNewMod_none_find_eq (st : Store) (now : Time) (id : UUID) (val : ModVal)
    (ft : FileObject) (h : st.find? id = some ft) :
    (addNewMod st now id val none).find? id =
      some { ft with mods := ft.mods ++ [⟨⟨st.nextId, now⟩, val⟩], curr_dt := now } := by
  unfold addNewMod
  dsimp only [mkVer]
  rw [show Store.find? { st with nextId := st.nextId + 1 } id = some ft from h]
  exact Store.find?_set_eq _ id _
    (by rw [show Store.find? { st with nextId := st.nextId + 1 } id = some ft from h]; rfl)

theorem addNewMod_none_find_ne (st : Store) (now : Time) (id : UUID) (val : ModVal)
    (j : UUID) (hj : j ≠ id) :
    (addNewMod st now id val none).find? j = st.find? j := by
  unfold addNewMod
  dsimp only [mkVer]
  cases h : Store.find? { st with nextId := st.nextId + 1 } id with
  | none => rfl
  | some ft => exact Store.find?_set_ne _ id _ j hj

/-- The store outcomes of a successful `rm_file`: untracked path (no-op) or
one `children` Mod on the parent plus a save. -/
theorem rmFile_ok_store {F : Nat} {st : Store} {d : Disk} {now : Time} {fp : FPath}
    {ver : Option Version} {st' : Store} {d' : Disk}
    (h : rmFile F st d now fp ver = Except.ok (st', d')) :
    st' = st ∨
    ∃ root ft parent, st.find? st.rootId = some root ∧
      findFilePath F st root fp = some ft ∧
      findFileParent F st root ft = some parent ∧
      ft.ID ∈ rc parent none ∧
      st' = { (addNewMod st now parent.ID
          (.children ((rc parent none).erase ft.ID)) ver) with
        saved := (addNewMod st now parent.ID
          (.children ((rc parent none).erase ft.ID)) ver).saved + 1 } := by
  unfold rmFile at h
  simp only [] at h
  split at h
  · cases h
  · rename_i root hroot
    split at h
    · rename_i hfp
      rw [Except.ok.injEq] at h
      exact Or.inl (congrArg Prod.fst h).symm
    · rename_i ft hfp
      split at h
      · cases h
      · rename_i parent hparent
        split at h
        · rename_i hmem
          split at h
          · cases h
          · rename_i root1 hroot1
            rw [Except.ok.injEq] at h
            refine Or.inr ⟨root, ft, parent, hroot, hfp, hparent, hmem, ?_⟩
            exact (congrArg Prod.fst h).symm
        · cases h

theorem rmFile_keys {F : Nat} {st : Store} {d : Disk} {now : Time} {fp : FPath}
    {ver : Option Version} {st' : Store} {d' : Disk}
    (h : rmFile F st d now fp ver = Except.ok (st', d')) :
    st'.index.map Prod.fst = st.index.map Prod.fst := by
  rcases rmFile_ok_store h with rfl | ⟨root, ft, parent, _, _, _, _, rfl⟩
  · rfl
  · exact addNewModO_keys st now parent.ID _ ver

theorem liveRefsB_saved (st : Store) (n : Nat) :
    liveRefsB { st with saved := n } = liveRefsB st := rfl

theorem rmFile_liveRefs {F : Nat} {st : Store} {d : Disk} {now : Time} {fp : FPath}
    {ver : Option Version} {st' : Store} {d' : Disk}
    (hidx : ∀ p ∈ st.index, p.2.ID = p.1) (hlive : liveRefsB st = true)
    (h : rmFile F st d now fp ver = Except.ok (st', d')) :
    liveRefsB st' = true := by
  rcases rmFile_ok_store h with rfl | ⟨root, ft, parent, hroot, hfp, hparent, hmem, rfl⟩
  · exact hlive
  · rw [liveRefsB_saved]
    refine liveRefs_addNewModO st now parent.ID _ ver hlive ?_
    intro cs hcs c hc
    rw [ModVal.children.injEq] at hcs
    subst hcs
    have hparI : st.find? parent.ID = some parent :=
      findFileParent_mem_index F st root ft parent hidx
        (find?_of_mem_entry hidx hroot) hparent
    obtain ⟨q, hq, hq2⟩ := find?_entry_mem hparI
    have hres := liveRefs_resolved st hlive q hq none
    rw [hq2] at hres
    exact hres c (List.erase_subset _ _ hc)

/-- Running the standalone `rm_file(root, fp)` (no version argument) on a
tracked file with its parent found. -/
theorem rmFile_run (F : Nat) (st : Store) (d : Disk) (now : Time) (fp : FPath)
    (root ft parent root1 : FileObject)
    (hroot : st.find? st.rootId = some root)
    (hfp : findFilePath F st root fp = some ft)
    (hparent : findFileParent F st root ft = some parent)
    (hmem : ft.ID ∈ rc parent none)
    (hroot1 : (addNewMod st now parent.ID
        (ModVal.children ((rc parent none).erase ft.ID)) none).find?
      (addNewMod st now parent.ID
        (ModVal.children ((rc parent none).erase ft.ID)) none).rootId = some root1) :
    rmFile F st d now fp none =
      Except.ok (saveTree
        (addNewMod st now parent.ID (ModVal.children ((rc parent none).erase ft.ID)) none)
        (if diskExists d fp then rmFOrD d fp else d) root1 now) := by
  unfold rmFile
  rw [hroot]
  dsimp only
  rw [hfp]
  dsimp only
  rw [hparent]
  dsimp only
  rw [if_pos hmem, hroot1]

/-- C9's `rm_file` clause: the deleted entry stays in the index with its
whole record (in particular its full Mod log); the parent gains one
`children` Mod whose value drops the child's identifier; everything else
is untouched; no identifier leaves the index. -/
theorem rmFile_spec (F : Nat) (st : Store) (d : Disk) (now : Time) (fp : FPath)
    (root ft parent : FileObject)
    (hidx : ∀ p ∈ st.index, p.2.ID = p.1)
    (hroot : st.find? st.rootId = some root)
    (hfp : findFilePath F st root fp = some ft)
    (hparent : findFileParent F st root ft = some parent)
    (hmem : ft.ID ∈ rc parent none)
    (hne : ft.ID ≠ parent.ID) :
    ∃ st' d', rmFile F st d now fp none = Except.ok (st', d') ∧
      st'.find? ft.ID = st.find? ft.ID ∧
      st'.find? parent.ID = some { parent with
        mods := parent.mods ++
          [⟨⟨st.nextId, now⟩, .children ((rc parent none).erase ft.ID)⟩],
        curr_dt := now } ∧
      (∀ j, j ≠ parent.ID → st'.find? j = st.find? j) ∧
      st'.index.map Prod.fst = st.index.map Prod.fst := by
  have hparI : st.find? parent.ID = some parent :=
    findFileParent_mem_index F st root ft parent hidx (find?_of_mem_entry hidx hroot)
      hparent
  have hkeys := addNewModO_keys st now parent.ID
    (ModVal.children ((rc parent none).erase ft.ID)) none
  have hsome1 : ((addNewMod st now parent.ID
      (ModVal.children ((rc parent none).erase ft.ID)) none).find?
        (addNewMod st now parent.ID
          (ModVal.children ((rc parent none).erase ft.ID)) none).rootId).isSome =
        true := by
    rw [addNewModO_rootId]
    rw [keys_eq_isSome hkeys]
    rw [hroot]
    rfl
  obtain ⟨root1, hroot1⟩ := Option.isSome_iff_exists.mp hsome1
  have hrun := rmFile_run F st d now fp root ft parent root1 hroot hfp hparent hmem hroot1
  refine ⟨_, _, hrun, ?_, ?_, ?_, ?_⟩
  · show (addNewMod st now parent.ID
      (ModVal.children ((rc parent none).erase ft.ID)) none).find? ft.ID =
        st.find? ft.ID
    exact addNewMod_none_find_ne st now parent.ID _ ft.ID hne
  · show (addNewMod st now parent.ID
      (ModVal.children ((rc parent none).erase ft.ID)) none).find? parent.ID = _
    exact addNewMod_none_find_eq st now parent.ID _ parent hparI
  · intro j hj
    show (addNewMod st now parent.ID
      (ModVal.children ((rc parent none).erase ft.ID)) none).find? j = st.find? j
    exact addNewMod_none_find_ne st now parent.ID _ j hj
  · exact hkeys

/-- Witness for C6 at the concrete move: `get_versions` grows by one. -/
theorem c6_mv_file_consistency_witness :
    (getVersions 6 (okStore (mvFile 6 exStoreMv exDiskMv 9 ["a", "f.txt"] ["b"] none))
        exRootMv).length = (getVersions 6 exStoreMv exRootMv).length + 1 :=
  (c6_mv_file_consistency 6 6 exStoreMv exDiskMv 9 ["a", "f.txt"] ["b"] exRootMv exFtMv
    exP1Mv exP2Mv exRootMv (by decide) (by decide) (by decide) (by decide) (by decide)
    (by decide) (by decide) (by decide) (by decide) (by decide) (by decide) (by decide)
    (by decide) (by decide) (by decide) (by decide)).2.2.2.2.2.2.2.2

/-- Index keys never disappear: every identifier resolvable in the first
store stays resolvable in the second. -/
def indexMono (st st' : Store) : Prop :=
  ∀ j, (st.find? j).isSome = true → (st'.find? j).isSome = true

/-- The store well-formedness bundle maintained by every mutating
operation: entries are keyed by their own identifier, keys stay below the
fresh-identifier counter, and all child references are live. -/
def storeWF (st : Store) : Prop :=
  (∀ p ∈ st.index, p.2.ID = p.1) ∧ IdBound st ∧ liveRefsB st = true

theorem indexMono_of_keys {st st' : Store}
    (h : st'.index.map Prod.fst = st.index.map Prod.fst) : indexMono st st' :=
  fun j hj => (keys_eq_isSome h j).mpr hj

theorem indexMono_trans {s1 s2 s3 : Store} (h1 : indexMono s1 s2)
    (h2 : indexMono s2 s3) : indexMono s1 s3 :=
  fun j hj => h2 j (h1 j hj)

theorem storeWF_saved {st : Store} (n : Nat) (h : storeWF st) :
    storeWF { st with saved := n } := h

theorem storeWF_nextId_succ {st : Store} (h : storeWF st) :
    storeWF { st with nextId := st.nextId + 1 } :=
  ⟨h.1, fun p hp => Nat.lt_succ_of_lt (h.2.1 p hp), h.2.2⟩

theorem entryRefsOk_of_find? {st : Store} {id : UUID} {e : FileObject}
    (hlive : liveRefsB st = true) (h : st.find? id = some e) :
    entryRefsOkB st e = true := by
  obtain ⟨q, hq, hq2⟩ := find?_entry_mem h
  have hok := (liveRefsB_iff st).mp hlive q hq
  rw [hq2] at hok
  exact hok

theorem rc_live {st : Store} {id : UUID} {e : FileObject}
    (hlive : liveRefsB st = true) (h : st.find? id = some e) (dt : Option Time) :
    ∀ c ∈ rc e dt, (st.find? c).isSome = true := by
  obtain ⟨q, hq, hq2⟩ := find?_entry_mem h
  intro c hc
  exact liveRefs_resolved st hlive q hq dt c (by rw [hq2]; exact hc)

theorem set_idkeys {st : Store} {id : UUID} {e : FileObject}
    (hidx : ∀ p ∈ st.index, p.2.ID = p.1) (hid : e.ID = id) :
    ∀ p ∈ (st.set id e).index, p.2.ID = p.1 := by
  intro p hp
  rcases mem_set_index hp with rfl | hp'
  · exact hid
  · exact hidx p hp'

theorem idBound_of_keys {st st' : Store}
    (hk : st'.index.map Prod.fst = st.index.map Prod.fst)
    (hn : st.nextId ≤ st'.nextId) (hb : IdBound st) : IdBound st' := by
  intro p hp
  have hkey : p.1 ∈ st.index.map Prod.fst := by
    rw [← hk]
    exact List.mem_map.mpr ⟨p, hp, rfl⟩
  obtain ⟨q, hq, hq1⟩ := List.mem_map.mp hkey
  calc p.1 = q.1 := hq1.symm
    _ < st.nextId := hb q hq
    _ ≤ st'.nextId := hn

theorem addNewModO_nextId_le (st : Store) (now : Time) (id : UUID) (val : ModVal)
    (ver : Option Version) : st.nextId ≤ (addNewMod st now id val ver).nextId := by
  cases ver with
  | some v =>
    unfold addNewMod
    dsimp only
    cases h : st.find? id
    · exact Nat.le_refl _
    · exact Nat.le_refl _
  | none =>
    unfold addNewMod
    dsimp only [mkVer]
    cases h : Store.find? { st with nextId := st.nextId + 1 } id
    · exact Nat.le_succ _
    · exact Nat.le_succ _

theorem liveRefs_set (st : Store) (id : UUID) (e : FileObject)
    (hlive : liveRefsB st = true) (hok : entryRefsOkB st e = true) :
    liveRefsB (st.set id e) = true := by
  have hiso : ∀ j, (st.find? j).isSome = true →
      ((st.set id e).find? j).isSome = true := by
    intro j hj
    rw [Store.find?_set_isSome]
    exact hj
  rw [liveRefsB_iff]
  intro p hp
  rcases mem_set_index hp with rfl | hp'
  · exact entryRefsOkB_mono hiso hok
  · exact entryRefsOkB_mono hiso ((liveRefsB_iff st).mp hlive p hp')

theorem addNewModO_wf (st : Store) (now : Time) (id : UUID) (val : ModVal)
    (ver : Option Version) (hwf : storeWF st)
    (hval : ∀ cs, val = .children cs → ∀ c ∈ cs, (st.find? c).isSome = true) :
    storeWF (addNewMod st now id val ver) :=
  ⟨addNewModO_idkeys hwf.1,
   idBound_of_keys (addNewModO_keys st now id val ver)
     (addNewModO_nextId_le st now id val ver) hwf.2.1,
   liveRefs_addNewModO st now id val ver hwf.2.2 hval⟩

theorem addNewModO_mono (st : Store) (now : Time) (id : UUID) (val : ModVal)
    (ver : Option Version) : indexMono st (addNewMod st now id val ver) :=
  indexMono_of_keys (addNewModO_keys st now id val ver)

theorem insert_fresh_wf (st : Store) (ft : FileObject) (hwf : storeWF st)
    (hid : ft.ID = st.nextId)
    (hok : entryRefsOkB (Store.insert { st with nextId := st.nextId + 1 } ft) ft
      = true) :
    storeWF (Store.insert { st with nextId := st.nextId + 1 } ft) ∧
    indexMono st (Store.insert { st with nextId := st.nextId + 1 } ft) ∧
    (Store.insert { st with nextId := st.nextId + 1 } ft).find? ft.ID = some ft ∧
    st.nextId < (Store.insert { st with nextId := st.nextId + 1 } ft).nextId := by
  have hnone : Store.find? { st with nextId := st.nextId + 1 } ft.ID = none := by
    show st.find? ft.ID = none
    rw [hid]
    exact idBound_find?_none hwf.2.1
  refine ⟨⟨?_, ?_, ?_⟩, ?_, ?_, ?_⟩
  · intro p hp
    have hp' : p ∈ st.index ++ [(ft.ID, ft)] := hp
    rcases List.mem_append.mp hp' with hp1 | hp1
    · exact hwf.1 p hp1
    · rw [List.mem_singleton] at hp1
      subst hp1
      rfl
  · intro p hp
    have hp' : p ∈ st.index ++ [(ft.ID, ft)] := hp
    show p.1 < st.nextId + 1
    rcases List.mem_append.mp hp' with hp1 | hp1
    · exact Nat.lt_succ_of_lt (hwf.2.1 p hp1)
    · rw [List.mem_singleton] at hp1
      subst hp1
      show ft.ID < st.nextId + 1
      rw [hid]
      exact Nat.lt_succ_self _
  · exact liveRefs_insert _ ft hwf.2.2 hok
  · intro j hj
    exact insert_isSome_mono _ ft j hj
  · exact insert_find?_self _ ft hnone
  · exact Nat.lt_succ_self _

/-- Invariant of the directory fold inside `_create_file_tree`: the
accumulator store is well-formed and extends `st0`, and the accumulated
directory object is the one stored under the created root's identifier,
still Mod-free. -/
def dirAcc (st0 : Store) (rootFt : FileObject) (acc : Store × FileObject) : Prop :=
  storeWF acc.1 ∧ indexMono st0 acc.1 ∧ st0.nextId ≤ acc.1.nextId ∧
  acc.1.find? rootFt.ID = some acc.2 ∧ acc.2.ID = rootFt.ID ∧ acc.2.mods = []

theorem createFileTree_wf :
    ∀ (F : Nat) (st : Store) (d : Disk) (now : Time) (fp : FPath) (st1 : Store)
      (ft1 : FileObject),
      createFileTree F st d now fp = some (st1, ft1) → storeWF st →
      storeWF st1 ∧ indexMono st st1 ∧ st.nextId ≤ st1.nextId ∧
        (st1.find? ft1.ID).isSome = true := by
  intro F
  induction F with
  | zero => intro st d now fp st1 ft1 h _; cases h
  | succ F ih =>
    intro st d now fp st1 ft1 h hwf
    unfold createFileTree at h
    split at h
    · cases h
    · split at h
      · -- directory branch
        simp only [] at h
        rw [Option.some.injEq] at h
        set ft0 : FileObject := mkFileObject d now fp .null st.nextId with hft0
        set st0 : Store :=
          Store.insert { st with nextId := st.nextId + 1 } ft0 with hst0
        obtain ⟨hwf0, hmono0, hfind0, hlt0⟩ := insert_fresh_wf st ft0 hwf rfl rfl
        have hfold : ∀ (l : List FPath) (acc : Store × FileObject),
            dirAcc st0 ft0 acc →
            dirAcc st0 ft0 (l.foldl
              (fun acc cfp =>
                match createFileTree F acc.1 d now cfp with
                | none => acc
                | some r =>
                  let ft' := { acc.2 with children :=
                    if r.2.ID ∈ acc.2.children then acc.2.children
                    else acc.2.children ++ [r.2.ID] }
                  (Store.set r.1 ft0.ID ft', ft'))
              acc) := by
          intro l
          induction l with
          | nil => intro acc hQ; exact hQ
          | cons x xs ihl =>
            intro acc hQ
            rw [List.foldl_cons]
            apply ihl
            dsimp only
            cases hcr : createFileTree F acc.1 d now x with
            | none => exact hQ
            | some r =>
              obtain ⟨rs, rf⟩ := r
              dsimp only
              obtain ⟨hwfr, hmonor, hler, hfr⟩ := ih acc.1 d now x rs rf hcr hQ.1
              have hch : ∀ c ∈ (if rf.ID ∈ acc.2.children then acc.2.children
                  else acc.2.children ++ [rf.ID]), (rs.find? c).isSome = true := by
                have hbase : ∀ c ∈ acc.2.children, (rs.find? c).isSome = true := by
                  intro c hc
                  have hok := (entryRefsOkB_iff acc.1 acc.2).mp
                    (entryRefsOk_of_find? hQ.1.2.2 hQ.2.2.2.1)
                  exact hmonor c (hok.1 c hc)
                intro c hc
                by_cases hin : rf.ID ∈ acc.2.children
                · rw [if_pos hin] at hc
                  exact hbase c hc
                · rw [if_neg hin] at hc
                  rcases List.mem_append.mp hc with hc1 | hc1
                  · exact hbase c hc1
                  · rw [List.mem_singleton] at hc1
                    subst hc1
                    exact hfr
              have hok' : entryRefsOkB rs
                  { acc.2 with children :=
                    if rf.ID ∈ acc.2.children then acc.2.children
                    else acc.2.children ++ [rf.ID] } = true := by
                rw [entryRefsOkB_iff]
                refine ⟨hch, ?_⟩
                intro m hm cs hcs c hc
                have hm' : m ∈ acc.2.mods := hm
                rw [hQ.2.2.2.2.2] at hm'
                cases hm'
              have hsome : (rs.find? ft0.ID).isSome = true := by
                have := hQ.2.2.2.1
                exact hmonor ft0.ID (by rw [this]; rfl)
              refine ⟨⟨?_, ?_, ?_⟩, ?_, ?_, ?_, ?_, ?_⟩
              · exact set_idkeys hwfr.1 hQ.2.2.2.2.1
              · exact idBound_of_keys (set_keys rs ft0.ID _) (Nat.le_refl _) hwfr.2.1
              · exact liveRefs_set rs ft0.ID _ hwfr.2.2 hok'
              · exact indexMono_trans (indexMono_trans hQ.2.1 hmonor)
                  (indexMono_of_keys (set_keys rs ft0.ID _))
              · exact Nat.le_trans hQ.2.2.1 hler
              · exact Store.find?_set_eq rs ft0.ID _ hsome
              · exact hQ.2.2.2.2.1
              · exact hQ.2.2.2.2.2
        have hQ1 := hfold (iterdir d fp) (st0, ft0)
          ⟨hwf0, fun j hj => hj, Nat.le_refl _, hfind0, rfl, rfl⟩
        rw [h] at hQ1
        refine ⟨hQ1.1, indexMono_trans hmono0 hQ1.2.1, ?_, ?_⟩
        · exact Nat.le_trans (Nat.le_of_lt hlt0) hQ1.2.2.1
        · rw [hQ1.2.2.2.2.1, hQ1.2.2.2.1]
          rfl
      · split at h
        · -- plain-file branch
          simp only [] at h
          rw [Option.some.injEq, Prod.mk.injEq] at h
          obtain ⟨h1, h2⟩ := h
          subst h1
          subst h2
          obtain ⟨hwfI, hmonoI, hfindI, hltI⟩ :=
            insert_fresh_wf st (mkFileObject d now fp (readData d fp) st.nextId)
              hwf rfl rfl
          exact ⟨hwfI, hmonoI, Nat.le_of_lt hltI, by rw [hfindI]; rfl⟩
        · cases h

/-- The store carried by either outcome of `_add_file_to_tree`. -/
def okStoreA (r : Except (PyErr × Store) (Store × UUID)) : Store :=
  match r with
  | .ok p => p.1
  | .error e => e.2

/-- The store carried by either outcome of `_mv_child_of_parents`. -/
def okStoreM (r : Except (PyErr × Store) Store) : Store :=
  match r with
  | .ok s => s
  | .error e => e.2

theorem rmFile_wf (F : Nat) (st : Store) (d : Disk) (now : Time) (fp : FPath)
    (ver : Option Version) (hwf : storeWF st) :
    storeWF (okStore (rmFile F st d now fp ver)) ∧
    indexMono st (okStore (rmFile F st d now fp ver)) := by
  unfold rmFile
  cases hr : st.find? st.rootId with
  | none => exact ⟨hwf, fun j hj => hj⟩
  | some root =>
    dsimp only
    cases hff : findFilePath F st root fp with
    | none => exact ⟨hwf, fun j hj => hj⟩
    | some ft =>
      dsimp only
      cases hfp : findFileParent F st root ft with
      | none => exact ⟨hwf, fun j hj => hj⟩
      | some parent =>
        dsimp only
        by_cases hmem : ft.ID ∈ rc parent none
        · rw [if_pos hmem]
          have hparI : st.find? parent.ID = some parent :=
            findFileParent_mem_index F st root ft parent hwf.1
              (find?_of_mem_entry hwf.1 hr) hfp
          have hval : ∀ cs,
              ModVal.children ((rc parent none).erase ft.ID) = ModVal.children cs →
              ∀ c ∈ cs, (st.find? c).isSome = true := by
            intro cs hcs c hc
            rw [ModVal.children.injEq] at hcs
            subst hcs
            exact rc_live hwf.2.2 hparI none c (List.erase_subset _ _ hc)
          have hwf1 := addNewModO_wf st now parent.ID
            (ModVal.children ((rc parent none).erase ft.ID)) ver hwf hval
          have hmono1 := addNewModO_mono st now parent.ID
            (ModVal.children ((rc parent none).erase ft.ID)) ver
          cases hr1 : (addNewMod st now parent.ID
              (ModVal.children ((rc parent none).erase ft.ID)) ver).find?
                (addNewMod st now parent.ID
                  (ModVal.children ((rc parent none).erase ft.ID)) ver).rootId with
          | none => exact ⟨hwf1, hmono1⟩
          | some root1 => exact ⟨storeWF_saved _ hwf1, hmono1⟩
        · rw [if_neg hmem]
          exact ⟨hwf, fun j hj => hj⟩

theorem addFileToTree_wf (F : Nat) (st : Store) (d : Disk) (now : Time)
    (root : FileObject) (fp : FPath) (v : Version) (hwf : storeWF st)
    (hroot : st.find? root.ID = some root) :
    storeWF (okStoreA (addFileToTree F st d now root fp (some v))) ∧
    indexMono st (okStoreA (addFileToTree F st d now root fp (some v))) ∧
    ∀ st' newId, addFileToTree F st d now root fp (some v) = Except.ok (st', newId) →
      (st'.find? newId).isSome = true := by
  unfold addFileToTree
  dsimp only
  cases hcr : createFileTree F st d now fp with
  | none =>
    refine ⟨hwf, fun j hj => hj, ?_⟩
    intro st' newId hok
    cases hok
  | some r =>
    obtain ⟨rs, rft⟩ := r
    dsimp only
    obtain ⟨hwfr, hmonor, hler, hfr⟩ := createFileTree_wf F st d now fp rs rft hcr hwf
    cases hpo : findFilePath F st root (pathParent fp) with
    | none =>
      refine ⟨hwfr, hmonor, ?_⟩
      intro st' newId hok
      cases hok
    | some parent =>
      dsimp only
      have hparI : st.find? parent.ID = some parent :=
        findFilePath_mem_index F st root parent (pathParent fp) hwf.1 hroot hpo
      have hch : ∀ c ∈ (if rft.ID ∈ parent.children then parent.children
          else parent.children ++ [rft.ID]), (rs.find? c).isSome = true := by
        have hbase : ∀ c ∈ parent.children, (rs.find? c).isSome = true := by
          intro c hc
          have hok := (entryRefsOkB_iff st parent).mp
            (entryRefsOk_of_find? hwf.2.2 hparI)
          exact hmonor c (hok.1 c hc)
        intro c hc
        by_cases hin : rft.ID ∈ parent.children
        · rw [if_pos hin] at hc
          exact hbase c hc
        · rw [if_neg hin] at hc
          rcases List.mem_append.mp hc with hc1 | hc1
          · exact hbase c hc1
          · rw [List.mem_singleton] at hc1
            subst hc1
            exact hfr
      have hval : ∀ cs,
          ModVal.children (if rft.ID ∈ parent.children then parent.children
            else parent.children ++ [rft.ID]) = ModVal.children cs →
          ∀ c ∈ cs, (rs.find? c).isSome = true := by
        intro cs hcs c hc
        rw [ModVal.children.injEq] at hcs
        subst hcs
        exact hch c hc
      have hwf2 := addNewModO_wf rs now parent.ID
        (ModVal.children (if rft.ID ∈ parent.children then parent.children
          else parent.children ++ [rft.ID])) (some v) hwfr hval
      have hmono2 := addNewModO_mono rs now parent.ID
        (ModVal.children (if rft.ID ∈ parent.children then parent.children
          else parent.children ++ [rft.ID])) (some v)
      refine ⟨hwf2, indexMono_trans hmonor hmono2, ?_⟩
      intro st' newId hok
      rw [Except.ok.injEq, Prod.mk.injEq] at hok
      obtain ⟨h1, h2⟩ := hok
      subst h1
      subst h2
      exact hmono2 rft.ID hfr

theorem commitOne_wf (F : Nat) (now : Time) (v : Version) (acc : Store × Disk)
    (item : FPath × String) (hwf : storeWF acc.1) :
    storeWF (okStore (commitOne F now v acc item)) ∧
    indexMono acc.1 (okStore (commitOne F now v acc item)) := by
  unfold commitOne
  split
  · exact rmFile_wf F acc.1 acc.2 now item.1 (some v) hwf
  · cases hr : acc.1.find? acc.1.rootId with
    | none => exact ⟨hwf, fun j hj => hj⟩
    | some root =>
      dsimp only
      cases hff : findFilePath F acc.1 root item.1 with
      | some ft =>
        dsimp only
        refine ⟨addNewModO_wf acc.1 now ft.ID _ (some v) hwf ?_,
          addNewModO_mono acc.1 now ft.ID _ (some v)⟩
        intro cs hcs
        cases hcs
      | none =>
        dsimp only
        have h := addFileToTree_wf F acc.1 acc.2 now root item.1 v hwf
          (find?_of_mem_entry hwf.1 hr)
        cases haf : addFileToTree F acc.1 acc.2 now root item.1 (some v) with
        | error e =>
          rw [haf] at h
          exact ⟨h.1, h.2.1⟩
        | ok r =>
          obtain ⟨rs, rid⟩ := r
          rw [haf] at h
          dsimp only
          have hfr : (rs.find? rid).isSome = true := h.2.2 rs rid rfl
          cases hnf : rs.find? rid with
          | none =>
            rw [hnf] at hfr
            cases hfr
          | some newft =>
            have hnid : newft.ID = rid := find?_entry_id h.1.1 hnf
            have hok2 : entryRefsOkB rs newft = true :=
              entryRefsOk_of_find? h.1.2.2 hnf
            refine ⟨⟨set_idkeys h.1.1 hnid,
              idBound_of_keys (set_keys rs rid _) (Nat.le_refl _) h.1.2.1,
              liveRefs_set rs rid _ h.1.2.2 (by exact hok2)⟩,
              indexMono_trans h.2.1 (indexMono_of_keys (set_keys rs rid _))⟩

theorem foldCommit_wf (F : Nat) (now : Time) (v : Version) :
    ∀ (l : List (FPath × String)) (acc : Store × Disk), storeWF acc.1 →
      storeWF (okStore (l.foldlM (commitOne F now v) acc)) ∧
      indexMono acc.1 (okStore (l.foldlM (commitOne F now v) acc)) := by
  intro l
  induction l with
  | nil => intro acc hwf; exact ⟨hwf, fun j hj => hj⟩
  | cons x xs ihl =>
    intro acc hwf
    have h1 := commitOne_wf F now v acc x hwf
    cases hx : commitOne F now v acc x with
    | error e =>
      have hbind : (x :: xs).foldlM (commitOne F now v) acc = Except.error e := by
        rw [List.foldlM_cons, hx]
        rfl
      rw [hx] at h1
      rw [hbind]
      exact ⟨h1.1, h1.2⟩
    | ok acc' =>
      have hbind : (x :: xs).foldlM (commitOne F now v) acc =
          xs.foldlM (commitOne F now v) acc' := by
        rw [List.foldlM_cons, hx]
        rfl
      rw [hx] at h1
      have h2 := ihl acc' h1.1
      rw [hbind]
      exact ⟨h2.1, indexMono_trans h1.2 h2.2⟩

theorem commit_wf (F : Nat) (st : Store) (d : Disk) (now : Time) (hwf : storeWF st) :
    storeWF (okStore (commit F st d now)) ∧
    indexMono st (okStore (commit F st d now)) := by
  unfold commit
  cases hr : st.find? st.rootId with
  | none => exact ⟨hwf, fun j hj => hj⟩
  | some root =>
    dsimp only
    by_cases hlt : root.curr_dt < lastChanged root
    · rw [if_pos hlt]
      exact ⟨hwf, fun j hj => hj⟩
    · rw [if_neg hlt]
      dsimp only [mkVer]
      have hf := foldCommit_wf F now ⟨st.nextId, now⟩
        (sortByDepth (changedFiles F { st with nextId := st.nextId + 1 } d root))
        ({ st with nextId := st.nextId + 1 }, d) (storeWF_nextId_succ hwf)
      cases hres : (sortByDepth
            (changedFiles F { st with nextId := st.nextId + 1 } d root)).foldlM
          (commitOne F now ⟨st.nextId, now⟩)
          ({ st with nextId := st.nextId + 1 }, d) with
      | error e =>
        rw [hres] at hf
        exact ⟨hf.1, hf.2⟩
      | ok r =>
        rw [hres] at hf
        dsimp only
        cases hr2 : r.1.find? r.1.rootId with
        | none => exact ⟨hf.1, hf.2⟩
        | some root2 => exact ⟨storeWF_saved _ hf.1, hf.2⟩

theorem mvChildOfParents_wf (st : Store) (now : Time) (childId p1Id p2Id : UUID)
    (v : Version) (hwf : storeWF st) (hchild : (st.find? childId).isSome = true) :
    storeWF (okStoreM (mvChildOfParents st now childId p1Id p2Id v)) ∧
    indexMono st (okStoreM (mvChildOfParents st now childId p1Id p2Id v)) := by
  unfold mvChildOfParents
  cases hp1 : st.find? p1Id with
  | none =>
    cases hp2 : st.find? p2Id with
    | none => exact ⟨hwf, fun j hj => hj⟩
    | some p2 => exact ⟨hwf, fun j hj => hj⟩
  | some p1 =>
    cases hp2 : st.find? p2Id with
    | none => exact ⟨hwf, fun j hj => hj⟩
    | some p2 =>
      dsimp only
      by_cases hin : childId ∈ rc p1 none
      · rw [if_pos hin]
        have hval1 : ∀ cs,
            ModVal.children ((rc p1 none).erase childId) = ModVal.children cs →
            ∀ c ∈ cs, (st.find? c).isSome = true := by
          intro cs hcs c hc
          rw [ModVal.children.injEq] at hcs
          subst hcs
          exact rc_live hwf.2.2 hp1 none c (List.erase_subset _ _ hc)
        have hwf1 := addNewModO_wf st now p1Id
          (ModVal.children ((rc p1 none).erase childId)) (some v) hwf hval1
        have hmono1 := addNewModO_mono st now p1Id
          (ModVal.children ((rc p1 none).erase childId)) (some v)
        have hval2 : ∀ cs,
            ModVal.children (if childId ∈ rc p2 none then rc p2 none
              else rc p2 none ++ [childId]) = ModVal.children cs →
            ∀ c ∈ cs, ((addNewMod st now p1Id
              (ModVal.children ((rc p1 none).erase childId)) (some v)).find?
                c).isSome = true := by
          intro cs hcs c hc
          rw [ModVal.children.injEq] at hcs
          subst hcs
          refine hmono1 c ?_
          by_cases hin2 : childId ∈ rc p2 none
          · rw [if_pos hin2] at hc
            exact rc_live hwf.2.2 hp2 none c hc
          · rw [if_neg hin2] at hc
            rcases List.mem_append.mp hc with hc1 | hc1
            · exact rc_live hwf.2.2 hp2 none c hc1
            · rw [List.mem_singleton] at hc1
              subst hc1
              exact hchild
        exact ⟨addNewModO_wf _ now p2Id _ (some v) hwf1 hval2,
          indexMono_trans hmono1 (addNewModO_mono _ now p2Id _ (some v))⟩
      · rw [if_neg hin]
        exact ⟨hwf, fun j hj => hj⟩

theorem mvFile_wf (F : Nat) (st : Store) (d : Disk) (now : Time) (fp parentP : FPath)
    (ver : Option Version) (hwf : storeWF st) :
    storeWF (okStore (mvFile F st d now fp parentP ver)) ∧
    indexMono st (okStore (mvFile F st d now fp parentP ver)) := by
  unfold mvFile
  by_cases hdir : ¬ isDirOnDisk d parentP
  · rw [if_pos hdir]
    exact ⟨hwf, fun j hj => hj⟩
  · rw [if_neg hdir]
    cases hr : st.find? st.rootId with
    | none => exact ⟨hwf, fun j hj => hj⟩
    | some root =>
      dsimp only
      cases hft : findFilePath F st root fp with
      | none => exact ⟨hwf, fun j hj => hj⟩
      | some ft =>
        cases hfp1 : findFilePath F st root (pathParent fp) with
        | none => exact ⟨hwf, fun j hj => hj⟩
        | some p1 =>
          cases hfp2 : findFilePath F st root parentP with
          | none => exact ⟨hwf, fun j hj => hj⟩
          | some p2 =>
            dsimp only
            have hftI : (st.find? ft.ID).isSome = true := by
              rw [findFilePath_mem_index F st root ft fp hwf.1
                (find?_of_mem_entry hwf.1 hr) hft]
              rfl
            cases ver with
            | some v =>
              dsimp only
              have hm := mvChildOfParents_wf st now ft.ID p1.ID p2.ID v hwf hftI
              cases hmc : mvChildOfParents st now ft.ID p1.ID p2.ID v with
              | error e =>
                rw [hmc] at hm
                exact ⟨hm.1, hm.2⟩
              | ok st1 =>
                rw [hmc] at hm
                dsimp only
                have hwf2 := addNewModO_wf st1 now ft.ID
                  (ModVal.path (parentP ++ [pathName fp])) (some v) hm.1
                  (fun cs hcs => by cases hcs)
                have hmono2 := addNewModO_mono st1 now ft.ID
                  (ModVal.path (parentP ++ [pathName fp])) (some v)
                cases hr2 : (addNewMod st1 now ft.ID
                    (ModVal.path (parentP ++ [pathName fp])) (some v)).find?
                      (addNewMod st1 now ft.ID
                        (ModVal.path (parentP ++ [pathName fp])) (some v)).rootId with
                | none => exact ⟨hwf2, indexMono_trans hm.2 hmono2⟩
                | some root2 =>
                  exact ⟨storeWF_saved _ hwf2, indexMono_trans hm.2 hmono2⟩
            | none =>
              dsimp only [mkVer]
              have hwfN : storeWF { st with nextId := st.nextId + 1 } :=
                storeWF_nextId_succ hwf
              have hftN : (Store.find? { st with nextId := st.nextId + 1 }
                  ft.ID).isSome = true := hftI
              have hm := mvChildOfParents_wf { st with nextId := st.nextId + 1 }
                now ft.ID p1.ID p2.ID ⟨st.nextId, now⟩ hwfN hftN
              cases hmc : mvChildOfParents { st with nextId := st.nextId + 1 }
                  now ft.ID p1.ID p2.ID ⟨st.nextId, now⟩ with
              | error e =>
                rw [hmc] at hm
                exact ⟨hm.1, hm.2⟩
              | ok st1 =>
                rw [hmc] at hm
                dsimp only
                have hwf2 := addNewModO_wf st1 now ft.ID
                  (ModVal.path (parentP ++ [pathName fp])) (some ⟨st.nextId, now⟩)
                  hm.1 (fun cs hcs => by cases hcs)
                have hmono2 := addNewModO_mono st1 now ft.ID
                  (ModVal.path (parentP ++ [pathName fp])) (some ⟨st.nextId, now⟩)
                cases hr2 : (addNewMod st1 now ft.ID
                    (ModVal.path (parentP ++ [pathName fp]))
                    (some ⟨st.nextId, now⟩)).find?
                      (addNewMod st1 now ft.ID
                        (ModVal.path (parentP ++ [pathName fp]))
                        (some ⟨st.nextId, now⟩)).rootId with
                | none => exact ⟨hwf2, indexMono_trans hm.2 hmono2⟩
                | some root2 =>
                  exact ⟨storeWF_saved _ hwf2, indexMono_trans hm.2 hmono2⟩

theorem ftAtTime_wf (now : Time) :
    ∀ (F : Nat) (st : Store) (d : Disk) (nodeId : UUID) (dt0 : Time), storeWF st →
      storeWF (okStore (ftAtTime F st d now nodeId dt0)) ∧
      indexMono st (okStore (ftAtTime F st d now nodeId dt0)) := by
  intro F
  induction F with
  | zero => intro st d nodeId dt0 hwf; exact ⟨hwf, fun j hj => hj⟩
  | succ F ih =>
    intro st d nodeId dt0 hwf
    unfold ftAtTime
    cases hn : st.find? nodeId with
    | none => exact ⟨hwf, fun j hj => hj⟩
    | some node =>
      dsimp only
      by_cases hg : node.curr_dt ≥ max dt0 st.initTime ∧
        changedFiles F st d node ≠ []
      · rw [if_pos hg]
        exact ⟨hwf, fun j hj => hj⟩
      · rw [if_neg hg]
        have hwf1 : storeWF
            (st.set nodeId { node with curr_dt := max dt0 st.initTime }) := by
          have hok : entryRefsOkB st node = true := entryRefsOk_of_find? hwf.2.2 hn
          have hnid : node.ID = nodeId := find?_entry_id hwf.1 hn
          exact ⟨set_idkeys hwf.1 (by exact hnid),
            idBound_of_keys (set_keys st nodeId _) (Nat.le_refl _) hwf.2.1,
            liveRefs_set st nodeId _ hwf.2.2 (by exact hok)⟩
        have hmono1 : indexMono st
            (st.set nodeId { node with curr_dt := max dt0 st.initTime }) :=
          indexMono_of_keys (set_keys st nodeId _)
        have hfold : ∀ (l : List UUID) (acc : Store × Disk), storeWF acc.1 →
            storeWF (okStore (l.foldlM
              (fun (acc : Store × Disk) c =>
                match acc.1.find? c with
                | none => Except.error (PyErr.keyErr, acc.1, acc.2)
                | some _ => ftAtTime F acc.1 acc.2 now c (max dt0 st.initTime))
              acc)) ∧
            indexMono acc.1 (okStore (l.foldlM
              (fun (acc : Store × Disk) c =>
                match acc.1.find? c with
                | none => Except.error (PyErr.keyErr, acc.1, acc.2)
                | some _ => ftAtTime F acc.1 acc.2 now c (max dt0 st.initTime))
              acc)) := by
          intro l
          induction l with
          | nil => intro acc hwfa; exact ⟨hwfa, fun j hj => hj⟩
          | cons c cs ihc =>
            intro acc hwfa
            rw [List.foldlM_cons]
            cases hfc : acc.1.find? c with
            | none => exact ⟨hwfa, fun j hj => hj⟩
            | some ch =>
              dsimp only
              have hstep := ih acc.1 acc.2 c (max dt0 st.initTime) hwfa
              cases hres : ftAtTime F acc.1 acc.2 now c (max dt0 st.initTime) with
              | error e =>
                rw [hres] at hstep
                exact ⟨hstep.1, hstep.2⟩
              | ok r =>
                rw [hres] at hstep
                have h2 := ihc r hstep.1
                exact ⟨h2.1, indexMono_trans hstep.2 h2.2⟩
        have hrest : ∀ d4 : Disk,
            storeWF (okStore
              (match (rc node none).foldlM
                  (fun (acc : Store × Disk) c =>
                    match acc.1.find? c with
                    | none => Except.error (PyErr.keyErr, acc.1, acc.2)
                    | some _ => ftAtTime F acc.1 acc.2 now c (max dt0 st.initTime))
                  (st.set nodeId { node with curr_dt := max dt0 st.initTime },
                    d4) with
                | .error e => .error e
                | .ok r =>
                  if isRootDir r.2 node.path then
                    Except.ok (saveTree r.1 r.2 node now)
                  else Except.ok r)) ∧
            indexMono st (okStore
              (match (rc node none).foldlM
                  (fun (acc : Store × Disk) c =>
                    match acc.1.find? c with
                    | none => Except.error (PyErr.keyErr, acc.1, acc.2)
                    | some _ => ftAtTime F acc.1 acc.2 now c (max dt0 st.initTime))
                  (st.set nodeId { node with curr_dt := max dt0 st.initTime },
                    d4) with
                | .error e => .error e
                | .ok r =>
                  if isRootDir r.2 node.path then
                    Except.ok (saveTree r.1 r.2 node now)
                  else Except.ok r)) := by
          intro d4
          have hf := hfold (rc node none)
            (st.set nodeId { node with curr_dt := max dt0 st.initTime }, d4) hwf1
          cases hfr : (rc node none).foldlM
              (fun (acc : Store × Disk) c =>
                match acc.1.find? c with
                | none => Except.error (PyErr.keyErr, acc.1, acc.2)
                | some _ => ftAtTime F acc.1 acc.2 now c (max dt0 st.initTime))
              (st.set nodeId { node with curr_dt := max dt0 st.initTime }, d4) with
          | error e =>
            rw [hfr] at hf
            exact ⟨hf.1, indexMono_trans hmono1 hf.2⟩
          | ok r =>
            rw [hfr] at hf
            dsimp only
            by_cases hird : isRootDir r.2 node.path
            · rw [if_pos hird]
              exact ⟨storeWF_saved _ hf.1, indexMono_trans hmono1 hf.2⟩
            · rw [if_neg hird]
              exact ⟨hf.1, indexMono_trans hmono1 hf.2⟩
        by_cases hrd : rd node (some node.curr_dt) ≠
          rd node (some (max dt0 st.initTime))
        · rw [if_pos hrd]
          cases hdd : rd node (some (max dt0 st.initTime)) with
          | str s =>
            dsimp only
            exact hrest _
          | null =>
            dsimp only
            exact ⟨hwf, fun j hj => hj⟩
          | bytes b =>
            dsimp only
            exact ⟨hwf, fun j hj => hj⟩
        · rw [if_neg hrd]
          dsimp only
          exact hrest _

/-- C9: the Entry Index never loses entries. Under the store
well-formedness conditions (entries keyed by their own identifier, keys
below the fresh-identifier counter, child references live), (1) every
identifier resolvable in the index before `rm_file`, `mv_file`, `commit`
or `ft_at_time` is still resolvable in the store each call carries out —
through success or error alike; (2) logical deletion via `rm_file`
appends a single `children` Mod to the parent that drops the child's
identifier from the parent's resolved child set, while the deleted
entry itself remains in the index with its record — and so its full Mod
log — unchanged, every other entry untouched and the key set preserved
exactly; (3) each of the four operations preserves the live-reference
invariant, and (4) under that invariant every identifier in any entry's
resolved children set (at any stop time) references a live index
entry. -/
theorem c9_index_never_loses_entries (F : Nat) (st : Store) (d : Disk)
    (now : Time) (fp parentP : FPath) (ver : Option Version) (nodeId : UUID)
    (dt : Time)
    (hidx : ∀ p ∈ st.index, p.2.ID = p.1) (hbound : IdBound st)
    (hlive : liveRefsB st = true) :
    (indexMono st (okStore (rmFile F st d now fp ver)) ∧
     indexMono st (okStore (mvFile F st d now fp parentP ver)) ∧
     indexMono st (okStore (commit F st d now)) ∧
     indexMono st (okStore (ftAtTime F st d now nodeId dt))) ∧
    (∀ root ft parent,
      st.find? st.rootId = some root →
      findFilePath F st root fp = some ft →
      findFileParent F st root ft = some parent →
      ft.ID ∈ rc parent none → ft.ID ≠ parent.ID →
      ∃ st' d', rmFile F st d now fp none = Except.ok (st', d') ∧
        st'.find? ft.ID = st.find? ft.ID ∧
        st'.find? parent.ID = some { parent with
          mods := parent.mods ++
            [⟨⟨st.nextId, now⟩, .children ((rc parent none).erase ft.ID)⟩],
          curr_dt := now } ∧
        (∀ j, j ≠ parent.ID → st'.find? j = st.find? j) ∧
        st'.index.map Prod.fst = st.index.map Prod.fst) ∧
    (liveRefsB (okStore (rmFile F st d now fp ver)) = true ∧
     liveRefsB (okStore (mvFile F st d now fp parentP ver)) = true ∧
     liveRefsB (okStore (commit F st d now)) = true ∧
     liveRefsB (okStore (ftAtTime F st d now nodeId dt)) = true) ∧
    (∀ st2 : Store, liveRefsB st2 = true →
      ∀ p ∈ st2.index, ∀ dtq : Option Time, ∀ c ∈ rc p.2 dtq,
        (st2.find? c).isSome = true) := by
  have hwf : storeWF st := ⟨hidx, hbound, hlive⟩
  have h1 := rmFile_wf F st d now fp ver hwf
  have h2 := mvFile_wf F st d now fp parentP ver hwf
  have h3 := commit_wf F st d now hwf
  have h4 := ftAtTime_wf now F st d nodeId dt hwf
  exact ⟨⟨h1.2, h2.2, h3.2, h4.2⟩,
    fun root ft parent hroot hfp hparent hmem hne =>
      rmFile_spec F st d now fp root ft parent hidx hroot hfp hparent hmem hne,
    ⟨h1.1.2.2, h2.1.2.2, h3.1.2.2, h4.1.2.2⟩,
    fun st2 hl2 => liveRefs_resolved st2 hl2⟩

/-- A two-entry store for exercising the C9 invariants. -/
def exRootC9 : FileObject := ⟨[], .null, 0, [], 0, true, [1], 0⟩

/-- The single tracked file of the C9 example. -/
def exFileC9 : FileObject := ⟨["f.txt"], .str "x", 1, [], 0, false, [], 0⟩

/-- The C9 example store. -/
def exStoreC9 : Store :=
  ⟨[(0, exRootC9), (1, exFileC9)], 0, ["ignore.txt", ".cairo.pkl"], 0, 2, 0⟩

/-- The C9 example disk. -/
def exDiskC9 : Disk :=
  [⟨[], true, .null, 0⟩, ⟨[".cairo.pkl"], false, .bytes [], 0⟩,
   ⟨["f.txt"], false, .str "x", 0⟩]

/-- Witness for C9 at the concrete two-entry store: the hypotheses hold
and two sample conclusions are extracted — `rm_file` keeps every
identifier resolvable, and `commit` preserves the live-reference
invariant. -/
theorem c9_index_never_loses_entries_witness :
    ((∀ p ∈ exStoreC9.index, p.2.ID = p.1) ∧ IdBound exStoreC9 ∧
      liveRefsB exStoreC9 = true) ∧
    indexMono exStoreC9 (okStore (rmFile 4 exStoreC9 exDiskC9 9 ["f.txt"] none)) ∧
    liveRefsB (okStore (commit 4 exStoreC9 exDiskC9 9)) = true :=
  ⟨⟨by decide, by unfold IdBound; decide, by decide⟩,
    (c9_index_never_loses_entries 4 exStoreC9 exDiskC9 9 ["f.txt"] [] none 0 0
      (by decide) (by unfold IdBound; decide) (by decide)).1.1,
    (c9_index_never_loses_entries 4 exStoreC9 exDiskC9 9 ["f.txt"] [] none 0 0
      (by decide) (by unfold IdBound; decide) (by decide)).2.2.1.2.2.1⟩

end Cairo
